import Mathlib

/-!
# Priority queue (`pq.c`): an implicit binary min-heap over two parallel stores

Shallow embedding of `src/pq.c`.

* A `dynarray` is a growable, index-addressable store.  Its implementation is not part
  of the sources; it is modelled from the specification as a list with range-checked
  indexed operations (an out-of-range access halts, modelled by `none`).
* A `pq` holds two stores, `values` and `priors`.  A priority box (`int*`) is modelled by
  the integer it holds: a box is written once, when it is allocated by `pq_insert`, and
  is only read afterwards.  Where the allocation and the release of the boxes matter, the
  section on the priority boxes embeds the same functions with the boxes explicit.
* The C functions mutate the queue in place; here every mutating function returns the new
  queue.  A function that can halt on a failed range check returns an `Option`.
* Indices are C `int`s that are never negative on a path that is reached: `pq_insert`
  passes the old size, `pq_remove_first` computes `size - 1` only after the read of slot 0
  has succeeded, and `perc_up` computes `idx - 1` only when `idx != 0`.  They are modelled
  by `Nat`; index arithmetic is exact as long as `2 * idx + 2` fits an `int`.
* Priorities are only stored and compared, never computed with; they are modelled by `Int`.
-/

set_option linter.unusedVariables false

namespace PQ

/-! ## The store -/

/-- Modelled from the spec: the growable indexed store (`dynarray.h`, `dynarray.c`), a
dense zero-based sequence with append, indexed read, indexed write, remove-at-index and
size. -/
structure dynarray (α : Type) where
  data : List α
deriving DecidableEq

/-- Modelled from the spec: `dynarray_create`, the empty store. -/
def dynarray_create {α : Type} : dynarray α := ⟨[]⟩

/-- Modelled from the spec: `dynarray_size`, the number of elements. -/
def dynarray_size {α : Type} (da : dynarray α) : Nat := da.data.length

/-- Modelled from the spec: `dynarray_insert`, append at the end. -/
def dynarray_insert {α : Type} (da : dynarray α) (val : α) : dynarray α :=
  ⟨da.data ++ [val]⟩

/-- Modelled from the spec: `dynarray_get`, indexed read; halts when `idx` is out of
range. -/
def dynarray_get {α : Type} (da : dynarray α) (idx : Nat) : Option α := da.data[idx]?

/-- Modelled from the spec: `dynarray_set`, indexed write; halts when `idx` is out of
range. -/
def dynarray_set {α : Type} (da : dynarray α) (idx : Nat) (val : α) : Option (dynarray α) :=
  if idx < da.data.length then some ⟨da.data.set idx val⟩ else none

/-- Modelled from the spec: `dynarray_remove`, remove the element at `idx`, closing the
gap; halts when `idx` is out of range. -/
def dynarray_remove {α : Type} (da : dynarray α) (idx : Nat) : Option (dynarray α) :=
  if idx < da.data.length then some ⟨da.data.eraseIdx idx⟩ else none

/-! ## The queue -/

/-- The `struct pq`: two parallel stores. -/
structure pq (α : Type) where
  values : dynarray α
  priors : dynarray Int
deriving DecidableEq

/-- The function `pq_create`: an empty queue. -/
def pq_create {α : Type} : pq α := ⟨dynarray_create, dynarray_create⟩

/-- The function `pq_isempty`: 1 when the value store is empty, 0 otherwise. -/
def pq_isempty {α : Type} (q : pq α) : Int :=
  if dynarray_size q.values = 0 then 1 else 0

/-- The function `swap`: exchange slots `one` and `two` in both stores. -/
def swap {α : Type} (q : pq α) (one two : Nat) : Option (pq α) := do
  let valTemp ← dynarray_get q.values one
  let priorTemp ← dynarray_get q.priors one
  let values ← dynarray_set q.values one (← dynarray_get q.values two)
  let priors ← dynarray_set q.priors one (← dynarray_get q.priors two)
  let values ← dynarray_set values two valTemp
  let priors ← dynarray_set priors two priorTemp
  pure ⟨values, priors⟩

/-- The function `perc_down`: sink the node at `idx`.  The first branch is the early
`return` taken when both children are out of range; otherwise `min` is the left child
when the right one is out of range, and else the child of lower priority, the left one on
a tie.  The walk moves to a child below the size of the store, so it is total. -/
def perc_down {α : Type} (q : pq α) (idx : Nat) : Option (pq α) :=
  let left := 2 * idx + 1
  let right := 2 * idx + 2
  if right ≥ dynarray_size q.values ∧ left ≥ dynarray_size q.values then
    some q
  else
    match hmin : (if right ≥ dynarray_size q.values then some left
        else do
          let leftP ← dynarray_get q.priors left
          let rightP ← dynarray_get q.priors right
          if leftP ≤ rightP then pure left else pure right) with
    | none => none
    | some min =>
      match dynarray_get q.priors idx, hb : dynarray_get q.priors min with
      | some idxP, some minP =>
        if idxP > minP then
          match hs : swap q idx min with
          | none => none
          | some q1 => perc_down q1 min
        else some q
      | _, _ => none
termination_by dynarray_size q.priors - idx
decreasing_by
  have hlt : min < q.priors.data.length := by
    simp only [dynarray_get] at hb
    exact (List.getElem?_eq_some.1 hb).1
  have hlen : q1.priors.data.length = q.priors.data.length := by
    simp only [swap, dynarray_get, dynarray_set, Option.bind_eq_bind, Option.bind_eq_some,
      Option.pure_def] at hs
    obtain ⟨_, _, _, _, _, _, _, _, _, _, p1, h2, _, _, p2, h3, h4⟩ := hs
    split at h2 <;> simp only [Option.some.injEq, reduceCtorEq] at h2
    split at h3 <;> simp only [Option.some.injEq, reduceCtorEq] at h3
    subst h2 h3
    simp only [Option.some.injEq] at h4
    subst h4
    simp only [List.length_set]
  have hgt : idx < min := by
    split at hmin
    · simp only [Option.some.injEq] at hmin; omega
    · simp only [Option.bind_eq_bind, Option.bind_eq_some, Option.pure_def] at hmin
      obtain ⟨_, _, _, _, h⟩ := hmin
      split at h <;> simp only [Option.some.injEq] at h <;> omega
  simp only [dynarray_size]
  omega

/-- The function `perc_up`: bubble the node at `idx` towards the root.  The walk moves to
the parent `(idx - 1) / 2`, which is below `idx`, so it is total. -/
def perc_up {α : Type} (q : pq α) (idx : Nat) : Option (pq α) :=
  if h : idx ≠ 0 then do
    let parent := (idx - 1) / 2
    let parentP ← dynarray_get q.priors parent
    let currP ← dynarray_get q.priors idx
    if parentP > currP then
      let q1 ← swap q parent idx
      perc_up q1 parent
    else pure q
  else pure q
termination_by idx
decreasing_by omega

/-- The function `pq_insert`: append the node to both stores, then `perc_up` from the
slot it was appended at. -/
def pq_insert {α : Type} (q : pq α) (value : α) (priority : Int) : Option (pq α) :=
  let last := dynarray_size q.values
  let values := dynarray_insert q.values value
  let priors := dynarray_insert q.priors priority
  perc_up ⟨values, priors⟩ last

/-- The function `pq_first`: the value in slot 0. -/
def pq_first {α : Type} (q : pq α) : Option α := dynarray_get q.values 0

/-- The function `pq_first_priority`: the priority in slot 0. -/
def pq_first_priority {α : Type} (q : pq α) : Option Int := dynarray_get q.priors 0

/-- The function `pq_remove_first`: the value returned and the queue left.  The read of
the priority box in slot `last` is the argument of `free`. -/
def pq_remove_first {α : Type} (q : pq α) : Option (α × pq α) := do
  let first ← dynarray_get q.values 0
  let last := dynarray_size q.values - 1
  let q1 ← swap q 0 last
  let _ ← dynarray_get q1.priors last
  let values ← dynarray_remove q1.values last
  let priors ← dynarray_remove q1.priors last
  let q2 : pq α := ⟨values, priors⟩
  if dynarray_size q2.values > 0 then
    let q3 ← perc_down q2 0
    pure (first, q3)
  else pure (first, q2)

/-! ## Vocabulary of the specification -/

/-- The two stores have equal length. -/
def in_step {α : Type} (q : pq α) : Prop :=
  dynarray_size q.values = dynarray_size q.priors

/-- The priority held in slot `i` (0 outside the live range, where it is never used). -/
def priority_at {α : Type} (q : pq α) (i : Nat) : Int := (q.priors.data[i]?).getD 0

/-- The min-heap invariant: every slot `i > 0` of the live range holds a priority that is
at least the one of its parent slot `(i - 1) / 2`. -/
def min_heap {α : Type} (q : pq α) : Prop :=
  ∀ i, i < dynarray_size q.priors → 0 < i → priority_at q ((i - 1) / 2) ≤ priority_at q i

instance in_step_decidable {α : Type} (q : pq α) : Decidable (in_step q) :=
  inferInstanceAs (Decidable (dynarray_size q.values = dynarray_size q.priors))

instance min_heap_decidable {α : Type} (q : pq α) : Decidable (min_heap q) :=
  inferInstanceAs (Decidable (∀ i, i < dynarray_size q.priors → 0 < i →
    priority_at q ((i - 1) / 2) ≤ priority_at q i))

/-- The invariant holds except between slot `idx` and its parent, and the children of
`idx` are not below the parent of `idx`: the state in which `perc_up` is entered. -/
def up_inv {α : Type} (q : pq α) (idx : Nat) : Prop :=
  (∀ i, i < dynarray_size q.priors → 0 < i → i ≠ idx →
    priority_at q ((i - 1) / 2) ≤ priority_at q i) ∧
  (∀ c, c < dynarray_size q.priors → 0 < c → (c - 1) / 2 = idx → 0 < idx →
    priority_at q ((idx - 1) / 2) ≤ priority_at q c)

/-- The invariant holds except between slot `idx` and its children, and the children of
`idx` are not below the parent of `idx`: the state in which `perc_down` is entered. -/
def down_inv {α : Type} (q : pq α) (idx : Nat) : Prop :=
  (∀ i, i < dynarray_size q.priors → 0 < i → (i - 1) / 2 ≠ idx →
    priority_at q ((i - 1) / 2) ≤ priority_at q i) ∧
  (∀ c, c < dynarray_size q.priors → 0 < c → (c - 1) / 2 = idx → 0 < idx →
    priority_at q ((idx - 1) / 2) ≤ priority_at q c)

/-- The nodes of the queue: slot `i` of the value store paired with slot `i` of the
priority store. -/
def nodes {α : Type} (q : pq α) : List (α × Int) := q.values.data.zip q.priors.data

/-- A caller that inserts the pairs of a list one by one, in order. -/
def insert_all {α : Type} (q : pq α) : List (α × Int) → Option (pq α)
  | [] => some q
  | (v, p) :: rest => (pq_insert q v p).bind (fun q1 => insert_all q1 rest)

/-- A caller that removes the front node until `pq_isempty` answers 1, reading the front
priority before each removal; `fuel` bounds the number of removals, and running out of it
with a queue that is not empty is a failure. -/
def drain {α : Type} : Nat → pq α → Option (List (α × Int))
  | 0, q => if pq_isempty q = 1 then some [] else none
  | fuel + 1, q =>
    if pq_isempty q = 1 then some []
    else do
      let p ← pq_first_priority q
      let (v, q1) ← pq_remove_first q
      let rest ← drain fuel q1
      pure ((v, p) :: rest)

/-- A caller that calls `pq_remove_first` exactly `n` times: the values returned, in
order, and the queue left. -/
def remove_n {α : Type} : Nat → pq α → Option (List α × pq α)
  | 0, q => some ([], q)
  | n + 1, q => do
    let (v, q1) ← pq_remove_first q
    let (vs, q2) ← remove_n n q1
    pure (v :: vs, q2)

/-- An operation of a caller's script: an insert or a removal. -/
inductive op (α : Type) where
  | insert (value : α) (priority : Int)
  | remove_first
deriving DecidableEq

/-- Run a script of operations from a queue. -/
def run {α : Type} (q : pq α) : List (op α) → Option (pq α)
  | [] => some q
  | op.insert v p :: rest => (pq_insert q v p).bind (fun q1 => run q1 rest)
  | op.remove_first :: rest => (pq_remove_first q).bind (fun r => run r.2 rest)

/-- The number of inserts of a script. -/
def count_inserts {α : Type} : List (op α) → Nat
  | [] => 0
  | op.insert _ _ :: rest => count_inserts rest + 1
  | op.remove_first :: rest => count_inserts rest

/-- The number of removals of a script. -/
def count_removals {α : Type} : List (op α) → Nat
  | [] => 0
  | op.insert _ _ :: rest => count_removals rest
  | op.remove_first :: rest => count_removals rest + 1

/-- The parent slot of slot `i` in the implicit tree (slot 0 has none). -/
def parent_slot (i : Nat) : Nat := (i - 1) / 2

/-- Slot `j` is an ancestor of slot `i`: it is reached from `i` by one parent step or
more.  From slot `i` the root is reached in at most `i` steps, which bounds the search. -/
def ancestor (j i : Nat) : Prop := ∃ k, k < i ∧ parent_slot^[k + 1] i = j

instance ancestor_decidable (j i : Nat) : Decidable (ancestor j i) :=
  inferInstanceAs (Decidable (∃ k, k < i ∧ parent_slot^[k + 1] i = j))

/-- A call that only inspects the queue. -/
inductive peek where
  | first
  | first_priority
  | isempty
deriving DecidableEq

/-- What a call that only inspects the queue returns. -/
inductive answer (α : Type) where
  | value (v : α)
  | priority (p : Int)
  | flag (b : Int)
deriving DecidableEq

/-- Modelled from the spec: `dynarray_get` as a step on the store, the element read and
the store as the call leaves it.  The store's `get(index) → value` is an indexed read: it
leaves the store as it is; it halts when `idx` is out of range. -/
def dynarray_get_call {α : Type} (da : dynarray α) (idx : Nat) : Option (α × dynarray α) :=
  (dynarray_get da idx).map (fun v => (v, da))

/-- Modelled from the spec: `dynarray_size` as a step on the store, the count and the
store as the call leaves it.  The store's `size() → count` is a query: it leaves the store
as it is. -/
def dynarray_size_call {α : Type} (da : dynarray α) : Nat × dynarray α :=
  (dynarray_size da, da)

/-- The function `pq_first` as a step on the queue: the value returned and the queue as
the call leaves it.  The body is the one call `dynarray_get(pq->values, 0)`: the value
store is the one that call leaves, and the body touches neither the priority store nor the
fields of the `struct pq`. -/
def pq_first_call {α : Type} (q : pq α) : Option (α × pq α) := do
  let (value, values) ← dynarray_get_call q.values 0
  pure (value, ⟨values, q.priors⟩)

/-- The function `pq_first_priority` as a step on the queue: the priority returned and
the queue as the call leaves it.  The body is the one call `dynarray_get(pq->priors, 0)`
and the read of the box it returns. -/
def pq_first_priority_call {α : Type} (q : pq α) : Option (Int × pq α) := do
  let (prior, priors) ← dynarray_get_call q.priors 0
  pure (prior, ⟨q.values, priors⟩)

/-- The function `pq_isempty` as a step on the queue: the flag returned and the queue as
the call leaves it.  The body is the one call `dynarray_size(pq->values)`. -/
def pq_isempty_call {α : Type} (q : pq α) : Int × pq α :=
  let (size, values) := dynarray_size_call q.values
  (if size = 0 then 1 else 0, ⟨values, q.priors⟩)

/-- One inspecting call of a caller's script: the answer, and the queue the call leaves,
which is the queue the next call is made on. -/
def peek_call {α : Type} (q : pq α) : peek → Option (answer α × pq α)
  | peek.first => (pq_first_call q).map (fun r => (answer.value r.1, r.2))
  | peek.first_priority =>
    (pq_first_priority_call q).map (fun r => (answer.priority r.1, r.2))
  | peek.isempty => some (answer.flag (pq_isempty_call q).1, (pq_isempty_call q).2)

/-- A caller that makes inspecting calls one after the other, with no insert and no
removal in between: the answers, in order, and the queue left. -/
def peek_calls {α : Type} (q : pq α) : List peek → Option (List (answer α) × pq α)
  | [] => some ([], q)
  | c :: rest => do
    let (a, q1) ← peek_call q c
    let (as, q2) ← peek_calls q1 rest
    pure (a :: as, q2)

/-! ## The priority boxes

`pq_insert` allocates a box for every priority (`malloc(sizeof(int))`) and the priority
store holds the address of the box; `pq_remove_first` passes one address to `free`.  The
definitions of this section embed the same functions with the boxes explicit: the priority
store holds addresses, and a `box_heap` records the boxes that are live, that is allocated
and not yet released. -/

/-- The part of the C heap that holds priority boxes: the live boxes, each with its
address and the integer it holds, and the address the next allocation returns. -/
structure box_heap where
  live : List (Nat × Int)
  next : Nat
deriving DecidableEq

/-- The C `malloc(sizeof(int))` followed by the write `*prior = priority`: the address of
the new box and the heap with the box live. -/
def box_alloc (h : box_heap) (priority : Int) : Nat × box_heap :=
  (h.next, ⟨h.live ++ [(h.next, priority)], h.next + 1⟩)

/-- The C read `*((int*) p)` of a box; reading an address that is not live halts. -/
def box_read (h : box_heap) (p : Nat) : Option Int := h.live.lookup p

/-- The C `free(p)` of a box; releasing an address that is not live halts. -/
def box_free (h : box_heap) (p : Nat) : Option box_heap :=
  if (h.live.lookup p).isSome then some ⟨h.live.filter (fun b => b.1 != p), h.next⟩
  else none

/-- The `struct pq` with the priority store holding the addresses of the boxes. -/
structure pq_box (α : Type) where
  values : dynarray α
  priors : dynarray Nat
deriving DecidableEq

/-- Modelled from the spec: `dynarray_free`, which releases the storage of the store and
not the elements it holds (the values are never destroyed by the heap); no priority box is
a store, so the live boxes are as before. -/
def dynarray_free {β : Type} (_da : dynarray β) (h : box_heap) : box_heap := h

/-- The function `pq_create`, with the boxes explicit. -/
def pq_create_box {α : Type} : pq_box α := ⟨dynarray_create, dynarray_create⟩

/-- The function `pq_free`, with the boxes explicit: the live boxes it leaves.  It frees
the two stores and the `struct pq`. -/
def pq_free_box {α : Type} (q : pq_box α) (h : box_heap) : box_heap :=
  dynarray_free q.priors (dynarray_free q.values h)

/-- The expression `*((int*) dynarray_get(pq->priors, idx))`. -/
def prior_box {α : Type} (q : pq_box α) (h : box_heap) (idx : Nat) : Option Int :=
  (dynarray_get q.priors idx).bind (box_read h)

/-- The function `swap`, with the boxes explicit: it moves addresses, no box is read. -/
def swap_box {α : Type} (q : pq_box α) (one two : Nat) : Option (pq_box α) := do
  let valTemp ← dynarray_get q.values one
  let priorTemp ← dynarray_get q.priors one
  let values ← dynarray_set q.values one (← dynarray_get q.values two)
  let priors ← dynarray_set q.priors one (← dynarray_get q.priors two)
  let values ← dynarray_set values two valTemp
  let priors ← dynarray_set priors two priorTemp
  pure ⟨values, priors⟩

/-- The function `perc_down`, with the boxes explicit. -/
def perc_down_box {α : Type} (q : pq_box α) (h : box_heap) (idx : Nat) :
    Option (pq_box α) :=
  let left := 2 * idx + 1
  let right := 2 * idx + 2
  if right ≥ dynarray_size q.values ∧ left ≥ dynarray_size q.values then
    some q
  else
    match hmin : (if right ≥ dynarray_size q.values then some left
        else do
          let leftP ← prior_box q h left
          let rightP ← prior_box q h right
          if leftP ≤ rightP then pure left else pure right) with
    | none => none
    | some min =>
      match prior_box q h idx, hb : prior_box q h min with
      | some idxP, some minP =>
        if idxP > minP then
          match hs : swap_box q idx min with
          | none => none
          | some q1 => perc_down_box q1 h min
        else some q
      | _, _ => none
termination_by dynarray_size q.priors - idx
decreasing_by
  have hlt : min < q.priors.data.length := by
    simp only [prior_box, dynarray_get, Option.bind_eq_some] at hb
    obtain ⟨a, ha, -⟩ := hb
    exact (List.getElem?_eq_some.1 ha).1
  have hlen : q1.priors.data.length = q.priors.data.length := by
    simp only [swap_box, dynarray_get, dynarray_set, Option.bind_eq_bind,
      Option.bind_eq_some, Option.pure_def] at hs
    obtain ⟨_, _, _, _, _, _, _, _, _, _, p1, h2, _, _, p2, h3, h4⟩ := hs
    split at h2 <;> simp only [Option.some.injEq, reduceCtorEq] at h2
    split at h3 <;> simp only [Option.some.injEq, reduceCtorEq] at h3
    subst h2 h3
    simp only [Option.some.injEq] at h4
    subst h4
    simp only [List.length_set]
  have hgt : idx < min := by
    split at hmin
    · simp only [Option.some.injEq] at hmin; omega
    · simp only [Option.bind_eq_bind, Option.bind_eq_some, Option.pure_def] at hmin
      obtain ⟨_, _, _, _, hh⟩ := hmin
      split at hh <;> simp only [Option.some.injEq] at hh <;> omega
  simp only [dynarray_size]
  omega

/-- The function `perc_up`, with the boxes explicit. -/
def perc_up_box {α : Type} (q : pq_box α) (h : box_heap) (idx : Nat) :
    Option (pq_box α) :=
  if h0 : idx ≠ 0 then do
    let parent := (idx - 1) / 2
    let parentP ← prior_box q h parent
    let currP ← prior_box q h idx
    if parentP > currP then
      let q1 ← swap_box q parent idx
      perc_up_box q1 h parent
    else pure q
  else pure q
termination_by idx
decreasing_by omega

/-- The function `pq_insert`, with the boxes explicit: one box is allocated. -/
def pq_insert_box {α : Type} (q : pq_box α) (h : box_heap) (value : α) (priority : Int) :
    Option (pq_box α × box_heap) := do
  let (prior, h1) := box_alloc h priority
  let last := dynarray_size q.values
  let values := dynarray_insert q.values value
  let priors := dynarray_insert q.priors prior
  let q1 ← perc_up_box ⟨values, priors⟩ h1 last
  pure (q1, h1)

/-- The function `pq_remove_first`, with the boxes explicit: the box whose address is in
slot `last` after the swap is released. -/
def pq_remove_first_box {α : Type} (q : pq_box α) (h : box_heap) :
    Option (α × pq_box α × box_heap) := do
  let first ← dynarray_get q.values 0
  let last := dynarray_size q.values - 1
  let q1 ← swap_box q 0 last
  let h1 ← box_free h (← dynarray_get q1.priors last)
  let values ← dynarray_remove q1.values last
  let priors ← dynarray_remove q1.priors last
  let q2 : pq_box α := ⟨values, priors⟩
  if dynarray_size q2.values > 0 then
    let q3 ← perc_down_box q2 h1 0
    pure (first, q3, h1)
  else pure (first, q2, h1)

/-! ## The store, slot by slot -/

theorem zip_set_set {α β : Type} (l1 : List α) (l2 : List β) (i : Nat) (a : α) (b : β) :
    (l1.set i a).zip (l2.set i b) = (l1.zip l2).set i (a, b) := by
  induction l1 generalizing l2 i with
  | nil => simp
  | cons x xs ih =>
    cases l2 with
    | nil => simp
    | cons y ys =>
      cases i with
      | zero => simp
      | succ i => simp [ih]

theorem set_set_perm {β : Type} (l : List β) (i j : Nat) (x y : β)
    (hx : l[i]? = some x) (hy : l[j]? = some y) :
    ((l.set i y).set j x).Perm l := by
  classical
  obtain ⟨hi, hxi⟩ := List.getElem?_eq_some.1 hx
  obtain ⟨hj, hyj⟩ := List.getElem?_eq_some.1 hy
  rw [List.perm_iff_count]
  intro b
  have hj1 : j < (l.set i y).length := by simpa using hj
  have h1 : (l.set i y)[j] = y := by
    by_cases hij : i = j
    · subst hij; simp
    · simp [List.getElem_set_ne hij, hyj]
  rw [List.count_set _ _ _ _ hj1, List.count_set _ _ _ _ hi, h1, hxi]
  have hpos : (x == b) = true → 0 < l.count b := by
    intro hb
    have : x = b := by simpa using hb
    subst this
    exact List.count_pos_iff.2 (hxi ▸ List.getElem_mem _)
  by_cases hxb : (x == b) = true <;> by_cases hyb : (y == b) = true
  · have := hpos hxb; simp [hxb, hyb]; omega
  · have := hpos hxb; simp [hxb, hyb]; omega
  · simp [hxb, hyb]
  · simp [hxb, hyb]

/-! ## The function `swap` -/

theorem swap_eq {α : Type} (q : pq α) (i j : Nat) (vi vj : α) (pi pj : Int)
    (hvi : q.values.data[i]? = some vi) (hvj : q.values.data[j]? = some vj)
    (hpi : q.priors.data[i]? = some pi) (hpj : q.priors.data[j]? = some pj) :
    swap q i j = some ⟨⟨(q.values.data.set i vj).set j vi⟩,
      ⟨(q.priors.data.set i pj).set j pi⟩⟩ := by
  have h1 := (List.getElem?_eq_some.1 hvi).1
  have h2 := (List.getElem?_eq_some.1 hvj).1
  have h3 := (List.getElem?_eq_some.1 hpi).1
  have h4 := (List.getElem?_eq_some.1 hpj).1
  simp [swap, dynarray_get, dynarray_set, hvi, hvj, hpi, hpj, h1, h2, h3, h4]

theorem getElem?_of_lt {β : Type} (l : List β) (i : Nat) (h : i < l.length) :
    ∃ x, l[i]? = some x := ⟨l[i], List.getElem?_eq_getElem h⟩

/-- The priorities after a swap of two live slots. -/
theorem priority_at_swapped {α : Type} (vs : dynarray α) (ps : List Int) (i j k : Nat)
    (pi pj : Int) (hpi : ps[i]? = some pi) (hpj : ps[j]? = some pj) :
    priority_at (⟨vs, ⟨(ps.set i pj).set j pi⟩⟩ : pq α) k =
      if k = j then pi else if k = i then pj else priority_at (⟨vs, ⟨ps⟩⟩ : pq α) k := by
  have h3 := (List.getElem?_eq_some.1 hpi).1
  have h4 := (List.getElem?_eq_some.1 hpj).1
  simp only [priority_at]
  by_cases hkj : k = j
  · subst hkj; simp [h4]
  · by_cases hki : k = i
    · subst hki
      simp [hkj, List.getElem?_set_ne (Ne.symm hkj), h3]
    · simp [hkj, hki, List.getElem?_set_ne (Ne.symm hkj), List.getElem?_set_ne (Ne.symm hki)]

/-- What `swap` does to a queue whose stores are in step, at two live slots. -/
theorem swap_spec {α : Type} (q : pq α) (i j : Nat) (hq : in_step q)
    (hi : i < dynarray_size q.priors) (hj : j < dynarray_size q.priors) :
    ∃ q1, swap q i j = some q1 ∧ in_step q1 ∧
      dynarray_size q1.priors = dynarray_size q.priors ∧
      (nodes q1).Perm (nodes q) ∧
      (∀ k, priority_at q1 k =
        if k = j then priority_at q i else if k = i then priority_at q j
        else priority_at q k) ∧
      (∀ k, k ≠ i → k ≠ j → (nodes q1)[k]? = (nodes q)[k]?) ∧
      (nodes q1)[i]? = (nodes q)[j]? ∧ (nodes q1)[j]? = (nodes q)[i]? := by
  obtain ⟨⟨vs⟩, ⟨ps⟩⟩ := q
  simp only [in_step, dynarray_size] at hq hi hj
  obtain ⟨vi, hvi⟩ := getElem?_of_lt vs i (by omega)
  obtain ⟨vj, hvj⟩ := getElem?_of_lt vs j (by omega)
  obtain ⟨pi, hpi⟩ := getElem?_of_lt ps i hi
  obtain ⟨pj, hpj⟩ := getElem?_of_lt ps j hj
  have hni : (vs.zip ps)[i]? = some (vi, pi) := by
    simp [List.getElem?_zip_eq_some, hvi, hpi]
  have hnj : (vs.zip ps)[j]? = some (vj, pj) := by
    simp [List.getElem?_zip_eq_some, hvj, hpj]
  have hzl : i < (vs.zip ps).length ∧ j < (vs.zip ps).length := by
    simp; omega
  refine ⟨_, swap_eq _ i j vi vj pi pj hvi hvj hpi hpj, ?_, ?_, ?_, ?_, ?_, ?_, ?_⟩
  · simp [in_step, dynarray_size, hq]
  · simp [dynarray_size]
  · simp only [nodes, zip_set_set]
    exact set_set_perm _ i j _ _ hni hnj
  · intro k
    rw [priority_at_swapped _ ps i j k pi pj hpi hpj]
    simp [priority_at, hpi, hpj]
  · intro k hki hkj
    simp only [nodes, zip_set_set]
    rw [List.getElem?_set_ne (Ne.symm hkj), List.getElem?_set_ne (Ne.symm hki)]
  · simp only [nodes, zip_set_set]
    by_cases hij : i = j
    · subst hij
      rw [List.getElem?_set, if_pos rfl, if_pos (by simpa using hzl.1), hni]
    · rw [List.getElem?_set_ne (Ne.symm hij), List.getElem?_set, if_pos rfl, if_pos hzl.1,
        hnj]
  · simp only [nodes, zip_set_set]
    rw [List.getElem?_set, if_pos rfl, if_pos (by simpa using hzl.2), hni]

/-! ## The function `perc_up` -/

theorem priority_at_eq {α : Type} (q : pq α) (i : Nat) (x : Int)
    (h : dynarray_get q.priors i = some x) : priority_at q i = x := by
  simp only [dynarray_get] at h
  simp [priority_at, h]

/-- One swap of `perc_up` leaves the queue in the state in which the walk goes on from
the parent. -/
theorem up_inv_step {α : Type} (q q1 : pq α) (idx : Nat)
    (hn : dynarray_size q1.priors = dynarray_size q.priors)
    (hidx : idx < dynarray_size q.priors) (h0 : idx ≠ 0)
    (hp : ∀ k, priority_at q1 k =
      if k = idx then priority_at q ((idx - 1) / 2)
      else if k = (idx - 1) / 2 then priority_at q idx else priority_at q k)
    (hlt : priority_at q idx < priority_at q ((idx - 1) / 2))
    (hinv : up_inv q idx) : up_inv q1 ((idx - 1) / 2) := by
  obtain ⟨h1, h2⟩ := hinv
  have hpar : (idx - 1) / 2 < idx := by omega
  constructor
  · intro i hi hi0 hne
    rw [hn] at hi
    by_cases hii : i = idx
    · subst hii
      rw [hp i, hp ((i - 1) / 2), if_pos rfl, if_neg (by omega), if_pos rfl]
      omega
    · rw [hp i, if_neg hii, if_neg hne, hp ((i - 1) / 2)]
      by_cases hpi : (i - 1) / 2 = idx
      · rw [if_pos hpi]
        exact h2 i hi hi0 hpi (by omega)
      · rw [if_neg hpi]
        by_cases hpp : (i - 1) / 2 = (idx - 1) / 2
        · rw [if_pos hpp]
          have := h1 i hi hi0 hii
          rw [hpp] at this
          omega
        · rw [if_neg hpp]
          exact h1 i hi hi0 hii
  · intro c hc hc0 hcp hp0
    rw [hn] at hc
    have hgp := h1 ((idx - 1) / 2) (by omega) hp0 (by omega)
    rw [hp (((idx - 1) / 2 - 1) / 2), if_neg (by omega), if_neg (by omega)]
    by_cases hci : c = idx
    · subst hci
      rw [hp c, if_pos rfl]
      exact hgp
    · rw [hp c, if_neg hci, if_neg (by omega)]
      have := h1 c hc hc0 hci
      rw [hcp] at this
      omega

/-- What `perc_up` does to a queue whose stores are in step, from a live slot: it returns
a queue of the same nodes, and restores the invariant when it is broken at most between
`idx` and its parent. -/
theorem perc_up_spec {α : Type} (idx : Nat) : ∀ (q : pq α), in_step q →
    idx < dynarray_size q.priors →
    ∃ q1, perc_up q idx = some q1 ∧ in_step q1 ∧
      dynarray_size q1.priors = dynarray_size q.priors ∧
      (nodes q1).Perm (nodes q) ∧ (up_inv q idx → min_heap q1) := by
  induction idx using Nat.strong_induction_on with
  | _ idx ih =>
    intro q hq hidx
    rw [perc_up]
    by_cases h0 : idx = 0
    · subst h0
      refine ⟨q, by simp, hq, rfl, List.Perm.refl _, ?_⟩
      intro hinv i hi hi0
      exact hinv.1 i hi hi0 (by omega)
    · have hpar : (idx - 1) / 2 < idx := by omega
      obtain ⟨parentP, hparentP⟩ := getElem?_of_lt q.priors.data ((idx - 1) / 2)
        (by simp only [dynarray_size] at hidx; omega)
      obtain ⟨currP, hcurrP⟩ := getElem?_of_lt q.priors.data idx hidx
      have e1 : priority_at q ((idx - 1) / 2) = parentP := priority_at_eq q _ _ hparentP
      have e2 : priority_at q idx = currP := priority_at_eq q _ _ hcurrP
      by_cases hgt : parentP > currP
      · obtain ⟨q1, hs, hq1, hn1, hperm1, hp1, -⟩ :=
          swap_spec q ((idx - 1) / 2) idx hq (by omega) hidx
        obtain ⟨q2, hr, hq2, hn2, hperm2, hinv2⟩ :=
          ih ((idx - 1) / 2) hpar q1 hq1 (by omega)
        refine ⟨q2, ?_, hq2, by omega, hperm2.trans hperm1, ?_⟩
        · simp [dynarray_get, hparentP, hcurrP, hgt, h0, hs, hr]
        · intro hinv
          apply hinv2
          exact up_inv_step q q1 idx hn1 hidx h0 hp1 (by omega) hinv
      · refine ⟨q, ?_, hq, rfl, List.Perm.refl _, ?_⟩
        · simp [dynarray_get, hparentP, hcurrP, hgt, h0]
        · intro hinv i hi hi0
          by_cases hii : i = idx
          · subst hii; omega
          · exact hinv.1 i hi hi0 hii

/-! ## The function `perc_down` -/

/-- At a slot without a child in range `perc_down` returns at once. -/
theorem perc_down_leaf {α : Type} (q : pq α) (idx : Nat)
    (h : dynarray_size q.values ≤ 2 * idx + 1) : perc_down q idx = some q := by
  rw [perc_down]
  have h2 : 2 * idx + 2 ≥ dynarray_size q.values ∧ 2 * idx + 1 ≥ dynarray_size q.values := by
    constructor <;> omega
  simp only [h2, and_self, if_true]

/-- One step of `perc_down` at a slot with a child in range, once the candidate child
`min` and the two priorities compared are known. -/
theorem perc_down_step {α : Type} (q : pq α) (idx min : Nat) (idxP minP : Int)
    (hl : 2 * idx + 1 < dynarray_size q.values)
    (hsel : (if 2 * idx + 2 ≥ dynarray_size q.values then some (2 * idx + 1)
        else do
          let leftP ← dynarray_get q.priors (2 * idx + 1)
          let rightP ← dynarray_get q.priors (2 * idx + 2)
          if leftP ≤ rightP then pure (2 * idx + 1) else pure (2 * idx + 2)) = some min)
    (hi : dynarray_get q.priors idx = some idxP)
    (hm : dynarray_get q.priors min = some minP) :
    perc_down q idx =
      if idxP > minP then (swap q idx min).bind (fun q1 => perc_down q1 min) else some q := by
  rw [perc_down]
  have h2 : ¬ (2 * idx + 2 ≥ dynarray_size q.values ∧
      2 * idx + 1 ≥ dynarray_size q.values) := by omega
  simp only [h2, if_false]
  split
  · rename_i hmin
    rw [hsel] at hmin
    exact absurd hmin (by simp)
  · rename_i min1 hmin
    rw [hsel] at hmin
    simp only [Option.some.injEq] at hmin
    subst hmin
    split
    · rename_i a b ha hb
      rw [hi] at ha
      rw [hm] at hb
      simp only [Option.some.injEq] at ha hb
      subst ha hb
      by_cases hgt : idxP > minP
      · simp only [hgt, if_true]
        split
        · rename_i hs
          simp [hs]
        · rename_i q1 hs
          simp [hs]
      · simp only [hgt, if_false]
    · rename_i hn
      exact (hn idxP minP hi hm).elim

/-- The candidate child of `perc_down` is a child in range of lowest priority. -/
theorem perc_down_min {α : Type} (q : pq α) (idx : Nat) (hq : in_step q)
    (hl : 2 * idx + 1 < dynarray_size q.priors) :
    ∃ min, (if 2 * idx + 2 ≥ dynarray_size q.values then some (2 * idx + 1)
        else do
          let leftP ← dynarray_get q.priors (2 * idx + 1)
          let rightP ← dynarray_get q.priors (2 * idx + 2)
          if leftP ≤ rightP then pure (2 * idx + 1) else pure (2 * idx + 2)) = some min ∧
      (min - 1) / 2 = idx ∧ idx < min ∧ min < dynarray_size q.priors ∧
      ∀ c, c < dynarray_size q.priors → 0 < c → (c - 1) / 2 = idx →
        priority_at q min ≤ priority_at q c := by
  simp only [in_step] at hq
  by_cases hr : 2 * idx + 2 ≥ dynarray_size q.values
  · refine ⟨2 * idx + 1, by simp [hr], by omega, by omega, hl, ?_⟩
    intro c hc hc0 hcp
    have : c = 2 * idx + 1 := by omega
    subst this
    exact le_refl _
  · have hr2 : 2 * idx + 2 < q.priors.data.length := by
      simp only [dynarray_size] at hq hr; omega
    obtain ⟨leftP, hleftP⟩ := getElem?_of_lt q.priors.data (2 * idx + 1) hl
    obtain ⟨rightP, hrightP⟩ := getElem?_of_lt q.priors.data (2 * idx + 2) hr2
    have e1 : priority_at q (2 * idx + 1) = leftP := priority_at_eq q _ _ hleftP
    have e2 : priority_at q (2 * idx + 2) = rightP := priority_at_eq q _ _ hrightP
    by_cases hle : leftP ≤ rightP
    · refine ⟨2 * idx + 1, by simp [hr, dynarray_get, hleftP, hrightP, hle], by omega,
        by omega, hl, ?_⟩
      intro c hc hc0 hcp
      have : c = 2 * idx + 1 ∨ c = 2 * idx + 2 := by omega
      rcases this with h | h <;> subst h <;> omega
    · refine ⟨2 * idx + 2, by simp [hr, dynarray_get, hleftP, hrightP, hle], by omega,
        by omega, hr2, ?_⟩
      intro c hc hc0 hcp
      have : c = 2 * idx + 1 ∨ c = 2 * idx + 2 := by omega
      rcases this with h | h <;> subst h <;> omega

/-- One swap of `perc_down` leaves the queue in the state in which the walk goes on from
the child. -/
theorem down_inv_step {α : Type} (q q1 : pq α) (idx min : Nat)
    (hn : dynarray_size q1.priors = dynarray_size q.priors)
    (hmp : (min - 1) / 2 = idx) (him : idx < min) (hml : min < dynarray_size q.priors)
    (hmin : ∀ c, c < dynarray_size q.priors → 0 < c → (c - 1) / 2 = idx →
      priority_at q min ≤ priority_at q c)
    (hp : ∀ k, priority_at q1 k =
      if k = min then priority_at q idx
      else if k = idx then priority_at q min else priority_at q k)
    (hlt : priority_at q min < priority_at q idx)
    (hinv : down_inv q idx) : down_inv q1 min := by
  obtain ⟨h1, h2⟩ := hinv
  constructor
  · intro i hi hi0 hne
    rw [hn] at hi
    by_cases him2 : i = min
    · subst him2
      rw [hp i, if_pos rfl, hp ((i - 1) / 2), if_neg (by omega), if_pos hmp]
      omega
    · by_cases hii : i = idx
      · subst hii
        rw [hp i, if_neg him2, if_pos rfl, hp ((i - 1) / 2), if_neg (by omega),
          if_neg (by omega)]
        exact h2 min hml (by omega) hmp hi0
      · rw [hp i, if_neg him2, if_neg hii, hp ((i - 1) / 2), if_neg hne]
        by_cases hpi : (i - 1) / 2 = idx
        · rw [if_pos hpi]
          exact hmin i hi hi0 hpi
        · rw [if_neg hpi]
          exact h1 i hi hi0 hpi
  · intro c hc hc0 hcp _
    rw [hn] at hc
    rw [hmp, hp idx, if_neg (by omega), if_pos rfl, hp c, if_neg (by omega),
      if_neg (by omega)]
    have := h1 c hc hc0 (by omega)
    rw [hcp] at this
    exact this

/-- What `perc_down` does to a queue whose stores are in step, from a live slot: it
returns a queue of the same nodes, and restores the invariant when it is broken at most
between `idx` and its children. -/
theorem perc_down_spec {α : Type} (m : Nat) : ∀ (q : pq α) (idx : Nat), in_step q →
    idx < dynarray_size q.priors → dynarray_size q.priors - idx ≤ m →
    ∃ q1, perc_down q idx = some q1 ∧ in_step q1 ∧
      dynarray_size q1.priors = dynarray_size q.priors ∧
      (nodes q1).Perm (nodes q) ∧ (down_inv q idx → min_heap q1) := by
  induction m with
  | zero => intro q idx _ hidx hm; omega
  | succ m ih =>
    intro q idx hq hidx hm
    have hq2 : dynarray_size q.values = dynarray_size q.priors := hq
    by_cases hleaf : dynarray_size q.values ≤ 2 * idx + 1
    · refine ⟨q, perc_down_leaf q idx hleaf, hq, rfl, List.Perm.refl _, ?_⟩
      intro hinv i hi hi0
      exact hinv.1 i hi hi0 (by omega)
    · obtain ⟨min, hsel, hmp, him, hml, hmin⟩ := perc_down_min q idx hq (by omega)
      obtain ⟨idxP, hidxP⟩ := getElem?_of_lt q.priors.data idx hidx
      obtain ⟨minP, hminP⟩ := getElem?_of_lt q.priors.data min hml
      have e1 : priority_at q idx = idxP := priority_at_eq q _ _ hidxP
      have e2 : priority_at q min = minP := priority_at_eq q _ _ hminP
      rw [perc_down_step q idx min idxP minP (by omega) hsel hidxP hminP]
      by_cases hgt : idxP > minP
      · obtain ⟨q1, hs, hq1, hn1, hperm1, hp1, -⟩ := swap_spec q idx min hq hidx hml
        obtain ⟨q2, hr, hq2, hn2, hperm2, hinv2⟩ :=
          ih q1 min hq1 (by omega) (by omega)
        refine ⟨q2, by simp [hgt, hs, hr], hq2, by omega, hperm2.trans hperm1, ?_⟩
        intro hinv
        apply hinv2
        exact down_inv_step q q1 idx min hn1 hmp him hml hmin hp1 (by omega) hinv
      · refine ⟨q, by simp [hgt], hq, rfl, List.Perm.refl _, ?_⟩
        intro hinv i hi hi0
        by_cases hpi : (i - 1) / 2 = idx
        · have := hmin i hi hi0 hpi
          rw [hpi]; omega
        · exact hinv.1 i hi hi0 hpi

/-! ## The function `pq_insert` -/

theorem zip_eraseIdx {α β : Type} (l1 : List α) (l2 : List β) (i : Nat) :
    (l1.eraseIdx i).zip (l2.eraseIdx i) = (l1.zip l2).eraseIdx i := by
  induction l1 generalizing l2 i with
  | nil => simp
  | cons x xs ih =>
    cases l2 with
    | nil => cases i <;> simp
    | cons y ys =>
      cases i with
      | zero => simp
      | succ i => simp [ih]

theorem perm_cons_eraseIdx {β : Type} (l : List β) (k : Nat) (x : β) (h : l[k]? = some x) :
    l.Perm (x :: l.eraseIdx k) := by
  induction l generalizing k with
  | nil => simp at h
  | cons a t ih =>
    cases k with
    | zero =>
      simp only [List.getElem?_cons_zero, Option.some.injEq] at h
      subst h
      simp
    | succ k =>
      simp only [List.getElem?_cons_succ] at h
      simp only [List.eraseIdx_cons_succ]
      exact ((ih k h).cons a).trans (List.Perm.swap x a _)

/-- What `pq_insert` does to a queue whose stores are in step: it returns a queue with
one more node, the one inserted, and keeps the invariant. -/
theorem pq_insert_spec {α : Type} (q : pq α) (value : α) (priority : Int)
    (hq : in_step q) :
    ∃ q1, pq_insert q value priority = some q1 ∧ in_step q1 ∧
      dynarray_size q1.priors = dynarray_size q.priors + 1 ∧
      (nodes q1).Perm ((value, priority) :: nodes q) ∧ (min_heap q → min_heap q1) := by
  obtain ⟨⟨vs⟩, ⟨ps⟩⟩ := q
  simp only [in_step, dynarray_size] at hq
  have hq0 : in_step (⟨⟨vs ++ [value]⟩, ⟨ps ++ [priority]⟩⟩ : pq α) := by
    simp [in_step, dynarray_size, hq]
  obtain ⟨q1, hr, hq1, hn1, hperm1, hinv1⟩ :=
    perc_up_spec vs.length ⟨⟨vs ++ [value]⟩, ⟨ps ++ [priority]⟩⟩ hq0
      (by simp [dynarray_size, hq])
  refine ⟨q1, ?_, hq1, ?_, ?_, ?_⟩
  · simpa [pq_insert, dynarray_insert, dynarray_size] using hr
  · simpa [dynarray_size] using hn1
  · refine hperm1.trans ?_
    simp only [nodes]
    rw [List.zip_append hq]
    simp
  · intro hinv
    apply hinv1
    have hpa : ∀ k, k < ps.length →
        priority_at (⟨⟨vs ++ [value]⟩, ⟨ps ++ [priority]⟩⟩ : pq α) k =
          priority_at (⟨⟨vs⟩, ⟨ps⟩⟩ : pq α) k := by
      intro k hk
      simp [priority_at, List.getElem?_append_left hk]
    constructor
    · intro i hi hi0 hne
      have hi2 : i < ps.length := by
        simp only [dynarray_size, List.length_append, List.length_singleton] at hi
        omega
      rw [hpa i hi2, hpa _ (by omega)]
      exact hinv i hi2 hi0
    · intro c hc hc0 hcp h0
      simp only [dynarray_size, List.length_append, List.length_singleton] at hc
      omega

/-! ## The function `pq_remove_first` -/

/-- What `pq_remove_first` does to a non-empty queue whose stores are in step: it returns
the value of slot 0 and a queue with the other nodes, and keeps the invariant. -/
theorem pq_remove_first_spec {α : Type} (q : pq α) (hq : in_step q)
    (hne : 0 < dynarray_size q.priors) :
    ∃ v p q1, dynarray_get q.values 0 = some v ∧ dynarray_get q.priors 0 = some p ∧
      pq_remove_first q = some (v, q1) ∧ in_step q1 ∧
      dynarray_size q1.priors + 1 = dynarray_size q.priors ∧
      (nodes q).Perm ((v, p) :: nodes q1) ∧ (min_heap q → min_heap q1) := by
  have hq2 : q.values.data.length = q.priors.data.length := hq
  have hne2 : 0 < q.priors.data.length := hne
  obtain ⟨v, hv⟩ := getElem?_of_lt q.values.data 0 (by omega)
  obtain ⟨p, hp⟩ := getElem?_of_lt q.priors.data 0 hne
  have hnode0 : (nodes q)[0]? = some (v, p) := by
    simp [nodes, List.getElem?_zip_eq_some, hv, hp]
  obtain ⟨L, hL⟩ : ∃ L, dynarray_size q.values - 1 = L := ⟨_, rfl⟩
  have hL2 : L + 1 = q.priors.data.length := by
    simp only [dynarray_size] at hL; omega
  obtain ⟨q1, hs, hq1, hn1, hperm1, hp1, -, -, hlast⟩ :=
    swap_spec q 0 L hq hne (by simp only [dynarray_size]; omega)
  have hq12 : q1.values.data.length = q1.priors.data.length := hq1
  have hn12 : q1.priors.data.length = q.priors.data.length := hn1
  have hl1 : L < q1.priors.data.length := by omega
  have hl2 : L < q1.values.data.length := by omega
  obtain ⟨x, hx⟩ := getElem?_of_lt q1.priors.data L hl1
  obtain ⟨q2, hq2def⟩ : ∃ q2 : pq α,
      q2 = ⟨⟨q1.values.data.eraseIdx L⟩, ⟨q1.priors.data.eraseIdx L⟩⟩ := ⟨_, rfl⟩
  have hlen2v : q2.values.data.length = L := by
    rw [hq2def]; simp only [List.length_eraseIdx, hl2, if_true]; omega
  have hlen2p : q2.priors.data.length = L := by
    rw [hq2def]; simp only [List.length_eraseIdx, hl1, if_true]; omega
  have hq3 : in_step q2 := by
    simp only [in_step, dynarray_size, hlen2v, hlen2p]
  have hperm3 : (nodes q).Perm ((v, p) :: nodes q2) := by
    refine hperm1.symm.trans ?_
    rw [hq2def]
    simp only [nodes, zip_eraseIdx]
    apply perm_cons_eraseIdx
    rw [← hnode0]
    exact hlast
  have hpa : ∀ k, 0 < k → k < L → priority_at q2 k = priority_at q k := by
    intro k hk0 hk
    have : priority_at q2 k = priority_at q1 k := by
      rw [hq2def]
      simp only [priority_at]
      rw [List.getElem?_eraseIdx_of_lt _ _ _ hk]
    rw [this, hp1 k, if_neg (by omega), if_neg (by omega)]
  have hinv3 : min_heap q → down_inv q2 0 := by
    intro hinv
    constructor
    · intro i hi hi0 hpar
      have hi2 : i < L := by simp only [dynarray_size] at hi; omega
      rw [hpa i hi0 hi2, hpa _ (by omega) (by omega)]
      exact hinv i (by simp only [dynarray_size]; omega) hi0
    · intro c _ _ _ h0
      omega
  have hrun : pq_remove_first q =
      if dynarray_size q2.values > 0 then (perc_down q2 0).bind (fun q3 => some (v, q3))
      else some (v, q2) := by
    simp only [pq_remove_first, hL]
    have hv2 : q2.values = ⟨q1.values.data.eraseIdx L⟩ := by rw [hq2def]
    simp [dynarray_get, dynarray_remove, hv, hs, hx, hl1, hl2, ← hq2def, hv2]
  rw [hrun]
  by_cases hsz : dynarray_size q2.values > 0
  · obtain ⟨q4, hr, hq4, hn4, hperm4, hinv4⟩ :=
      perc_down_spec _ q2 0 hq3 (by rw [← hq3]; exact hsz) (le_refl _)
    refine ⟨v, p, q4, hv, hp, ?_, hq4, ?_, ?_, fun h => hinv4 (hinv3 h)⟩
    · simp [hsz, hr]
    · simp only [dynarray_size] at hn4 ⊢; omega
    · exact hperm3.trans (hperm4.symm.cons _)
  · refine ⟨v, p, q2, hv, hp, ?_, hq3, ?_, hperm3, ?_⟩
    · simp [hsz]
    · simp only [dynarray_size]; omega
    · intro _ i hi hi0
      simp only [dynarray_size] at hsz hi
      omega

/-! ## The front of the queue -/

/-- In a queue that satisfies the invariant, slot 0 holds a lowest priority. -/
theorem root_le {α : Type} (q : pq α) (hinv : min_heap q) (i : Nat) :
    i < dynarray_size q.priors → priority_at q 0 ≤ priority_at q i := by
  induction i using Nat.strong_induction_on with
  | _ i ih =>
    intro hi
    by_cases h0 : i = 0
    · subst h0; exact le_refl _
    · have h1 := ih ((i - 1) / 2) (by omega) (by omega)
      have h2 := hinv i hi (by omega)
      omega

theorem nodes_length {α : Type} (q : pq α) (hq : in_step q) :
    (nodes q).length = dynarray_size q.priors := by
  have h : q.values.data.length = q.priors.data.length := hq
  simp [nodes, dynarray_size, h]

/-- Every node of the queue sits in a live slot. -/
theorem priority_of_mem {α : Type} (q : pq α) (x : α × Int) (hx : x ∈ nodes q) :
    ∃ i, i < dynarray_size q.priors ∧ priority_at q i = x.2 := by
  obtain ⟨i, hi, hxi⟩ := List.getElem_of_mem hx
  have h := (List.getElem?_eq_getElem hi).trans (congrArg some hxi)
  obtain ⟨v, p⟩ := x
  simp only [nodes, List.getElem?_zip_eq_some] at h
  refine ⟨i, (List.getElem?_eq_some.1 h.2).1, ?_⟩
  simp [priority_at, h.2]

theorem pos_of_not_isempty {α : Type} (q : pq α) (hq : in_step q)
    (hne : pq_isempty q = 0) : 0 < dynarray_size q.priors := by
  have h2 : dynarray_size q.values = dynarray_size q.priors := hq
  by_cases h0 : dynarray_size q.values = 0
  · simp [pq_isempty, h0] at hne
  · omega

/-! ## Callers: insert a list, remove until empty -/

theorem nodes_eq_nil {α : Type} (q : pq α) (h : dynarray_size q.priors = 0) :
    nodes q = [] := by
  have : q.priors.data = [] := List.length_eq_zero.1 h
  simp [nodes, this]

theorem isempty_eq_one_iff {α : Type} (q : pq α) :
    pq_isempty q = 1 ↔ dynarray_size q.values = 0 := by
  by_cases h : dynarray_size q.values = 0 <;> simp [pq_isempty, h]

theorem isempty_eq_zero_iff {α : Type} (q : pq α) :
    pq_isempty q = 0 ↔ dynarray_size q.values ≠ 0 := by
  by_cases h : dynarray_size q.values = 0 <;> simp [pq_isempty, h]

/-- Inserting a list into a queue whose stores are in step adds exactly its pairs. -/
theorem insert_all_spec {α : Type} (l : List (α × Int)) : ∀ (q : pq α), in_step q →
    ∃ q1, insert_all q l = some q1 ∧ in_step q1 ∧
      dynarray_size q1.priors = dynarray_size q.priors + l.length ∧
      (nodes q1).Perm (l ++ nodes q) ∧ (min_heap q → min_heap q1) := by
  induction l with
  | nil =>
    intro q hq
    exact ⟨q, rfl, hq, rfl, List.Perm.refl _, fun h => h⟩
  | cons x rest ih =>
    intro q hq
    obtain ⟨v, p⟩ := x
    obtain ⟨q1, hr1, hq1, hn1, hperm1, hinv1⟩ := pq_insert_spec q v p hq
    obtain ⟨q2, hr2, hq2, hn2, hperm2, hinv2⟩ := ih q1 hq1
    refine ⟨q2, by simp [insert_all, hr1, hr2], hq2, ?_, ?_, fun h => hinv2 (hinv1 h)⟩
    · simp only [List.length_cons]; omega
    · refine hperm2.trans ?_
      refine (List.Perm.append_left rest hperm1).trans ?_
      exact @List.perm_middle _ (v, p) rest (nodes q)

/-- Removing until empty from a queue that satisfies the invariant returns its nodes in
non-decreasing order of priority. -/
theorem drain_spec {α : Type} (fuel : Nat) : ∀ (q : pq α), in_step q → min_heap q →
    dynarray_size q.priors ≤ fuel →
    ∃ out, drain fuel q = some out ∧ out.Perm (nodes q) ∧
      out.Pairwise (fun a b => a.2 ≤ b.2) := by
  induction fuel with
  | zero =>
    intro q hq _ hn
    have hq2 : dynarray_size q.values = dynarray_size q.priors := hq
    refine ⟨[], ?_, ?_, List.Pairwise.nil⟩
    · simp [drain, (isempty_eq_one_iff q).2 (by omega)]
    · rw [nodes_eq_nil q (by omega)]
  | succ fuel ih =>
    intro q hq hinv hn
    have hq2 : dynarray_size q.values = dynarray_size q.priors := hq
    by_cases he : pq_isempty q = 1
    · refine ⟨[], by simp [drain, he], ?_, List.Pairwise.nil⟩
      rw [nodes_eq_nil q (by rw [← hq2]; exact (isempty_eq_one_iff q).1 he)]
    · have hpos : 0 < dynarray_size q.priors := by
        have := (isempty_eq_one_iff q).not.1 he
        omega
      obtain ⟨v, p, q1, -, hp, hr, hq1, hn1, hperm1, hinv1⟩ :=
        pq_remove_first_spec q hq hpos
      obtain ⟨rest, hd, hperm2, hsorted⟩ := ih q1 hq1 (hinv1 hinv) (by omega)
      have hperm3 : ((v, p) :: rest).Perm (nodes q) :=
        (hperm2.cons (v, p)).trans hperm1.symm
      refine ⟨(v, p) :: rest, ?_, hperm3, ?_⟩
      · simp [drain, he, pq_first_priority, hp, hr, hd]
      · refine List.Pairwise.cons ?_ hsorted
        intro x hx
        have hmem : x ∈ nodes q := hperm3.subset (List.mem_cons_of_mem _ hx)
        obtain ⟨i, hi, hxi⟩ := priority_of_mem q x hmem
        have := root_le q hinv i hi
        rw [priority_at_eq q 0 p hp, hxi] at this
        exact this

/-- Removing as many times as the queue has nodes empties it and returns the values of
its nodes. -/
theorem remove_n_spec {α : Type} (n : Nat) : ∀ (q : pq α), in_step q →
    dynarray_size q.priors = n →
    ∃ vs q1, remove_n n q = some (vs, q1) ∧ in_step q1 ∧ dynarray_size q1.priors = 0 ∧
      vs.Perm ((nodes q).map Prod.fst) := by
  induction n with
  | zero =>
    intro q hq hn
    refine ⟨[], q, rfl, hq, hn, ?_⟩
    rw [nodes_eq_nil q hn]
    exact List.Perm.refl _
  | succ n ih =>
    intro q hq hn
    obtain ⟨v, p, q1, -, -, hr, hq1, hn1, hperm1, -⟩ :=
      pq_remove_first_spec q hq (by omega)
    obtain ⟨vs, q2, hr2, hq2, hn2, hperm2⟩ := ih q1 hq1 (by omega)
    refine ⟨v :: vs, q2, by simp [remove_n, hr, hr2], hq2, hn2, ?_⟩
    have := hperm1.map Prod.fst
    simp only [List.map_cons] at this
    exact (hperm2.cons v).trans this.symm

theorem pq_create_in_step {α : Type} : in_step (pq_create : pq α) := rfl

theorem pq_create_min_heap {α : Type} : min_heap (pq_create : pq α) := by
  intro i hi
  simp [pq_create, dynarray_create, dynarray_size] at hi

theorem perm_pair {β : Type} (vs : List β) (x y : β) (h : vs.Perm [x, y]) :
    vs = [x, y] ∨ vs = [y, x] := by
  have hlen := h.length_eq
  match vs, hlen with
  | [a, b], _ =>
    have ha : a ∈ [x, y] := h.subset (List.mem_cons_self _ _)
    simp only [List.mem_cons, List.mem_singleton, List.not_mem_nil, or_false] at ha
    rcases ha with ha | ha
    · subst ha
      have hb := List.Perm.eq_singleton (List.Perm.cons_inv h).symm
      simp only [List.cons.injEq, and_true] at hb
      left; rw [hb]
    · subst ha
      have hb := List.Perm.eq_singleton
        (List.Perm.cons_inv (h.trans (List.Perm.swap a x []))).symm
      simp only [List.cons.injEq, and_true] at hb
      right; rw [hb]

/-- A script that never has more removals than inserts in a prefix, counting the nodes
of the starting queue as inserts, runs to the end; the size changes by the number of
inserts minus the number of removals. -/
theorem run_spec {α : Type} (ops : List (op α)) : ∀ (q : pq α), in_step q →
    (∀ n, count_removals (ops.take n) ≤ dynarray_size q.priors + count_inserts (ops.take n)) →
    ∃ q1, run q ops = some q1 ∧ in_step q1 ∧
      dynarray_size q1.priors + count_removals ops =
        dynarray_size q.priors + count_inserts ops := by
  induction ops with
  | nil =>
    intro q hq _
    exact ⟨q, rfl, hq, rfl⟩
  | cons o rest ih =>
    intro q hq h
    cases o with
    | insert v p =>
      obtain ⟨q1, hr1, hq1, hn1, -, -⟩ := pq_insert_spec q v p hq
      obtain ⟨q2, hr2, hq2, hn2⟩ := ih q1 hq1 (by
        intro n
        have := h (n + 1)
        simp only [List.take_succ_cons, count_removals, count_inserts] at this
        omega)
      refine ⟨q2, by simp [run, hr1, hr2], hq2, ?_⟩
      simp only [count_removals, count_inserts]
      omega
    | remove_first =>
      have h1 := h 1
      simp only [List.take_succ_cons, List.take_zero, count_removals, count_inserts] at h1
      obtain ⟨v, p, q1, -, -, hr1, hq1, hn1, -, -⟩ := pq_remove_first_spec q hq (by omega)
      obtain ⟨q2, hr2, hq2, hn2⟩ := ih q1 hq1 (by
        intro n
        have := h (n + 1)
        simp only [List.take_succ_cons, count_removals, count_inserts] at this
        omega)
      refine ⟨q2, by simp [run, hr1, hr2], hq2, ?_⟩
      simp only [count_removals, count_inserts]
      omega

/-! ## The path of `perc_up` -/

/-- At the root `perc_up` returns at once. -/
theorem perc_up_root {α : Type} (q : pq α) : perc_up q 0 = some q := by
  rw [perc_up]
  simp

/-- One step of `perc_up` below the root, once the two priorities compared are known. -/
theorem perc_up_step {α : Type} (q : pq α) (idx : Nat) (parentP currP : Int)
    (h0 : idx ≠ 0)
    (hp : dynarray_get q.priors ((idx - 1) / 2) = some parentP)
    (hc : dynarray_get q.priors idx = some currP) :
    perc_up q idx =
      if parentP > currP then
        (swap q ((idx - 1) / 2) idx).bind (fun q1 => perc_up q1 ((idx - 1) / 2))
      else some q := by
  rw [perc_up]
  by_cases hgt : parentP > currP
  · simp [h0, hp, hc, hgt]
  · simp [h0, hp, hc, hgt]

theorem ancestor_of_parent {j i : Nat} (h0 : i ≠ 0) (h : j = (i - 1) / 2 ∨ ancestor j ((i - 1) / 2)) :
    ancestor j i := by
  rcases h with h | ⟨k, hk, hj⟩
  · exact ⟨0, by omega, by simp [parent_slot, h]⟩
  · refine ⟨k + 1, by omega, ?_⟩
    rw [Function.iterate_succ_apply]
    exact hj

/-- The walk of `perc_up` from `idx` leaves every slot that is neither `idx` nor one of
its ancestors as it was. -/
theorem perc_up_frame {α : Type} (idx : Nat) : ∀ (q q1 : pq α), in_step q →
    idx < dynarray_size q.priors → perc_up q idx = some q1 →
    ∀ j, j ≠ idx → ¬ ancestor j idx → (nodes q1)[j]? = (nodes q)[j]? := by
  induction idx using Nat.strong_induction_on with
  | _ idx ih =>
    intro q q1 hq hidx hr j hji hja
    by_cases h0 : idx = 0
    · subst h0
      rw [perc_up_root] at hr
      simp only [Option.some.injEq] at hr
      rw [hr]
    · have hpar : (idx - 1) / 2 < idx := by omega
      obtain ⟨parentP, hparentP⟩ := getElem?_of_lt q.priors.data ((idx - 1) / 2)
        (by simp only [dynarray_size] at hidx; omega)
      obtain ⟨currP, hcurrP⟩ := getElem?_of_lt q.priors.data idx hidx
      rw [perc_up_step q idx parentP currP h0 hparentP hcurrP] at hr
      by_cases hgt : parentP > currP
      · obtain ⟨q2, hs, hq2, hn2, -, -, hframe, -, -⟩ :=
          swap_spec q ((idx - 1) / 2) idx hq (by omega) hidx
        simp only [hgt, if_true, hs, Option.some_bind] at hr
        have hjp : j ≠ (idx - 1) / 2 := fun h => hja (ancestor_of_parent h0 (Or.inl h))
        have hjpa : ¬ ancestor j ((idx - 1) / 2) :=
          fun h => hja (ancestor_of_parent h0 (Or.inr h))
        rw [ih ((idx - 1) / 2) hpar q2 q1 hq2 (by omega) hr j hjp hjpa]
        exact hframe j hjp hji
      · simp only [hgt, if_false, Option.some.injEq] at hr
        rw [hr]

/-- The walk of `perc_up` from a slot whose priority is not below the one of the root
leaves the root as it was. -/
theorem perc_up_keeps_root {α : Type} (idx : Nat) : ∀ (q q1 : pq α), in_step q →
    idx < dynarray_size q.priors → perc_up q idx = some q1 → idx ≠ 0 →
    priority_at q 0 ≤ priority_at q idx → (nodes q1)[0]? = (nodes q)[0]? := by
  induction idx using Nat.strong_induction_on with
  | _ idx ih =>
    intro q q1 hq hidx hr h0 hle
    have hpar : (idx - 1) / 2 < idx := by omega
    obtain ⟨parentP, hparentP⟩ := getElem?_of_lt q.priors.data ((idx - 1) / 2)
      (by simp only [dynarray_size] at hidx; omega)
    obtain ⟨currP, hcurrP⟩ := getElem?_of_lt q.priors.data idx hidx
    have e1 : priority_at q ((idx - 1) / 2) = parentP := priority_at_eq q _ _ hparentP
    have e2 : priority_at q idx = currP := priority_at_eq q _ _ hcurrP
    rw [perc_up_step q idx parentP currP h0 hparentP hcurrP] at hr
    by_cases hgt : parentP > currP
    · obtain ⟨q2, hs, hq2, hn2, -, hp2, hframe, -, -⟩ :=
        swap_spec q ((idx - 1) / 2) idx hq (by omega) hidx
      simp only [hgt, if_true, hs, Option.some_bind] at hr
      have hp0 : (idx - 1) / 2 ≠ 0 := by
        intro h
        rw [h] at e1
        omega
      have h20 : priority_at q2 0 = priority_at q 0 := by
        rw [hp2 0, if_neg (by omega), if_neg (by omega)]
      have h2p : priority_at q2 ((idx - 1) / 2) = priority_at q idx := by
        rw [hp2 ((idx - 1) / 2), if_neg (by omega), if_pos rfl]
      rw [ih ((idx - 1) / 2) hpar q2 q1 hq2 (by omega) hr hp0 (by omega)]
      exact hframe 0 (by omega) (by omega)
    · simp only [hgt, if_false, Option.some.injEq] at hr
      rw [hr]

theorem parent_slot_iterate_le (k i : Nat) : parent_slot^[k] i ≤ i := by
  induction k generalizing i with
  | zero => simp
  | succ k ih =>
    rw [Function.iterate_succ_apply]
    have h1 := ih (parent_slot i)
    have h2 : parent_slot i ≤ i := by simp only [parent_slot]; omega
    omega

/-- An ancestor of a slot is a slot below it. -/
theorem ancestor_lt {j i : Nat} (h : ancestor j i) : j < i := by
  obtain ⟨k, hk, hj⟩ := h
  rw [Function.iterate_succ_apply] at hj
  have h1 := parent_slot_iterate_le k (parent_slot i)
  have h2 : parent_slot i < i := by simp only [parent_slot]; omega
  omega

/-- The queue `pq_insert` hands to `perc_up`: the node appended to both stores. -/
theorem pq_insert_eq {α : Type} (q : pq α) (v : α) (p : Int) :
    pq_insert q v p =
      perc_up ⟨⟨q.values.data ++ [v]⟩, ⟨q.priors.data ++ [p]⟩⟩ (dynarray_size q.values) :=
  rfl

theorem nodes_appended {α : Type} (q : pq α) (v : α) (p : Int) (hq : in_step q) :
    nodes (⟨⟨q.values.data ++ [v]⟩, ⟨q.priors.data ++ [p]⟩⟩ : pq α) =
      nodes q ++ [(v, p)] := by
  have h : q.values.data.length = q.priors.data.length := hq
  simp only [nodes]
  rw [List.zip_append h]
  simp

theorem nodes_appended_lt {α : Type} (q : pq α) (v : α) (p : Int) (hq : in_step q)
    (j : Nat) (hj : j < dynarray_size q.priors) :
    (nodes (⟨⟨q.values.data ++ [v]⟩, ⟨q.priors.data ++ [p]⟩⟩ : pq α))[j]? =
      (nodes q)[j]? := by
  rw [nodes_appended q v p hq]
  exact List.getElem?_append_left (by rw [nodes_length q hq]; exact hj)

theorem priority_at_appended_lt {α : Type} (q : pq α) (v : α) (p : Int)
    (j : Nat) (hj : j < dynarray_size q.priors) :
    priority_at (⟨⟨q.values.data ++ [v]⟩, ⟨q.priors.data ++ [p]⟩⟩ : pq α) j =
      priority_at q j := by
  simp only [priority_at]
  rw [List.getElem?_append_left hj]

theorem priority_at_appended_last {α : Type} (q : pq α) (v : α) (p : Int) :
    priority_at (⟨⟨q.values.data ++ [v]⟩, ⟨q.priors.data ++ [p]⟩⟩ : pq α)
      (dynarray_size q.priors) = p := by
  simp [priority_at, dynarray_size]

theorem in_step_appended {α : Type} (q : pq α) (v : α) (p : Int) (hq : in_step q) :
    in_step (⟨⟨q.values.data ++ [v]⟩, ⟨q.priors.data ++ [p]⟩⟩ : pq α) := by
  have h : q.values.data.length = q.priors.data.length := hq
  simp [in_step, dynarray_size, h]

/-- The node of slot 0 is what `pq_first` and `pq_first_priority` return. -/
theorem front_of_node {α : Type} (q : pq α) (a : α) (b : Int)
    (h : (nodes q)[0]? = some (a, b)) :
    pq_first q = some a ∧ pq_first_priority q = some b := by
  simp only [nodes, List.getElem?_zip_eq_some] at h
  exact ⟨h.1, h.2⟩

theorem node_of_front {α : Type} (q : pq α) (a : α) (b : Int)
    (ha : pq_first q = some a) (hb : pq_first_priority q = some b) :
    (nodes q)[0]? = some (a, b) := by
  simp only [nodes, List.getElem?_zip_eq_some]
  exact ⟨ha, hb⟩

/-! ## The path of `perc_down` -/

/-- The walk of `perc_down` from `idx` leaves every slot other than `idx` that is below
the children of `idx` as it was. -/
theorem perc_down_frame {α : Type} (m : Nat) : ∀ (q q1 : pq α) (idx : Nat), in_step q →
    idx < dynarray_size q.priors → dynarray_size q.priors - idx ≤ m →
    perc_down q idx = some q1 →
    ∀ j, j ≠ idx → j < 2 * idx + 1 → (nodes q1)[j]? = (nodes q)[j]? := by
  induction m with
  | zero => intro q q1 idx _ hidx hm; omega
  | succ m ih =>
    intro q q1 idx hq hidx hm hr j hji hjl
    have hq2 : dynarray_size q.values = dynarray_size q.priors := hq
    by_cases hleaf : dynarray_size q.values ≤ 2 * idx + 1
    · rw [perc_down_leaf q idx hleaf] at hr
      simp only [Option.some.injEq] at hr
      rw [hr]
    · obtain ⟨min, hsel, hmp, him, hml, -⟩ := perc_down_min q idx hq (by omega)
      obtain ⟨idxP, hidxP⟩ := getElem?_of_lt q.priors.data idx hidx
      obtain ⟨minP, hminP⟩ := getElem?_of_lt q.priors.data min hml
      rw [perc_down_step q idx min idxP minP (by omega) hsel hidxP hminP] at hr
      by_cases hgt : idxP > minP
      · obtain ⟨q2, hs, hq2s, hn2, -, -, hframe, -, -⟩ := swap_spec q idx min hq hidx hml
        simp only [hgt, if_true, hs, Option.some_bind] at hr
        rw [ih q2 q1 min hq2s (by omega) (by omega) hr j (by omega) (by omega)]
        exact hframe j hji (by omega)
      · simp only [hgt, if_false, Option.some.injEq] at hr
        rw [hr]

/-- Three nodes of equal priority come out in the order first, third, second. -/
theorem remove_three_equal {α : Type} (X Y Z : α) :
    ∃ q q1, insert_all pq_create [(X, 2), (Y, 2), (Z, 2)] = some q ∧
      remove_n 3 q = some ([X, Z, Y], q1) := by
  refine ⟨⟨⟨[X, Y, Z]⟩, ⟨[2, 2, 2]⟩⟩, ⟨⟨[]⟩, ⟨[]⟩⟩, ?_, ?_⟩
  · simp only [insert_all, pq_insert, pq_create, dynarray_create, dynarray_size,
      dynarray_insert]
    rw [perc_up]
    simp [dynarray_get, swap, dynarray_set]
    rw [perc_up]
    simp [dynarray_get, swap, dynarray_set]
    rw [perc_up]
    simp [dynarray_get, swap, dynarray_set]
  · have h1 : pq_remove_first (⟨⟨[X, Y, Z]⟩, ⟨[2, 2, 2]⟩⟩ : pq α) =
        some (X, ⟨⟨[Z, Y]⟩, ⟨[2, 2]⟩⟩) := by
      simp [pq_remove_first, dynarray_get, swap, dynarray_set, dynarray_size,
        dynarray_remove]
      rw [perc_down_step _ 0 1 2 2 (by simp [dynarray_size]) (by simp [dynarray_size])
        (by simp [dynarray_get]) (by simp [dynarray_get])]
      simp
    have h2 : pq_remove_first (⟨⟨[Z, Y]⟩, ⟨[2, 2]⟩⟩ : pq α) =
        some (Z, ⟨⟨[Y]⟩, ⟨[2]⟩⟩) := by
      simp [pq_remove_first, dynarray_get, swap, dynarray_set, dynarray_size,
        dynarray_remove]
      rw [perc_down_leaf _ _ (by simp [dynarray_size])]
      simp
    have h3 : pq_remove_first (⟨⟨[Y]⟩, ⟨[2]⟩⟩ : pq α) = some (Y, ⟨⟨[]⟩, ⟨[]⟩⟩) := by
      simp [pq_remove_first, dynarray_get, swap, dynarray_set, dynarray_size,
        dynarray_remove]
    simp [remove_n, h1, h2, h3]

/-- Swapping the only slot of a one-node queue with itself succeeds and changes
nothing. -/
theorem swap_self {α : Type} (q : pq α) (i : Nat) (hq : in_step q)
    (hi : i < dynarray_size q.priors) : swap q i i = some q := by
  have hq2 : q.values.data.length = q.priors.data.length := hq
  obtain ⟨vi, hvi⟩ := getElem?_of_lt q.values.data i (by rw [hq2]; exact hi)
  obtain ⟨pi, hpi⟩ := getElem?_of_lt q.priors.data i hi
  rw [swap_eq q i i vi vi pi pi hvi hvi hpi hpi]
  obtain ⟨⟨vs⟩, ⟨ps⟩⟩ := q
  have h1 : (vs.set i vi).set i vi = vs := by
    apply List.ext_getElem? 
    intro k
    simp only [List.set_set]
    by_cases hk : i = k
    · subst hk; rw [List.getElem?_set, if_pos rfl, if_pos (List.getElem?_eq_some.1 hvi).1]
      exact hvi.symm
    · rw [List.getElem?_set_ne hk]
  have h2 : (ps.set i pi).set i pi = ps := by
    apply List.ext_getElem? 
    intro k
    simp only [List.set_set]
    by_cases hk : i = k
    · subst hk; rw [List.getElem?_set, if_pos rfl, if_pos (List.getElem?_eq_some.1 hpi).1]
      exact hpi.symm
    · rw [List.getElem?_set_ne hk]
  simp only at h1 h2 ⊢
  rw [h1, h2]

/-! ## The priority boxes -/

/-- At a slot without a child in range `perc_down` returns at once, with the boxes
explicit too. -/
theorem perc_down_box_leaf {α : Type} (q : pq_box α) (h : box_heap) (idx : Nat)
    (hl : dynarray_size q.values ≤ 2 * idx + 1) : perc_down_box q h idx = some q := by
  rw [perc_down_box]
  have h2 : 2 * idx + 2 ≥ dynarray_size q.values ∧ 2 * idx + 1 ≥ dynarray_size q.values := by
    constructor <;> omega
  simp only [h2, and_self, if_true]

/-! ## The claims -/

/-- C1: `pq_insert` preserves the min-heap invariant.  On every queue whose stores have
equal length and that satisfies the invariant, `pq_insert` of any value with any integer
priority returns a queue whose live range is one larger and that satisfies the invariant
again. -/
theorem pq_insert_preserves_min_heap {α : Type} (q : pq α) (value : α) (priority : Int)
    (hq : in_step q) (hinv : min_heap q) :
    ∃ q1, pq_insert q value priority = some q1 ∧
      dynarray_size q1.priors = dynarray_size q.priors + 1 ∧ min_heap q1 := by
  obtain ⟨q1, hr, -, hn, -, h⟩ := pq_insert_spec q value priority hq
  exact ⟨q1, hr, hn, h hinv⟩

/-- A concrete instance: a three-node queue and the pair (40, 1). -/
theorem pq_insert_preserves_min_heap_witness :
    in_step (⟨⟨[20, 10, 30]⟩, ⟨[3, 5, 8]⟩⟩ : pq Nat) ∧
    min_heap (⟨⟨[20, 10, 30]⟩, ⟨[3, 5, 8]⟩⟩ : pq Nat) ∧
    ∃ q1, pq_insert (⟨⟨[20, 10, 30]⟩, ⟨[3, 5, 8]⟩⟩ : pq Nat) 40 1 = some q1 ∧
      dynarray_size q1.priors =
        dynarray_size (⟨⟨[20, 10, 30]⟩, ⟨[3, 5, 8]⟩⟩ : pq Nat).priors + 1 ∧
      min_heap q1 :=
  ⟨by decide, by decide,
    pq_insert_preserves_min_heap ⟨⟨[20, 10, 30]⟩, ⟨[3, 5, 8]⟩⟩ 40 1 (by decide) (by decide)⟩

/-- C2: `pq_remove_first` preserves the min-heap invariant.  On every non-empty queue
whose stores have equal length and that satisfies the invariant, `pq_remove_first`
returns a queue whose live range is one smaller and that satisfies the invariant. -/
theorem pq_remove_first_preserves_min_heap {α : Type} (q : pq α)
    (hne : pq_isempty q = 0) (hq : in_step q) (hinv : min_heap q) :
    ∃ v q1, pq_remove_first q = some (v, q1) ∧
      dynarray_size q1.priors + 1 = dynarray_size q.priors ∧ min_heap q1 := by
  obtain ⟨v, p, q1, -, -, hr, -, hn, -, h⟩ :=
    pq_remove_first_spec q hq (pos_of_not_isempty q hq hne)
  exact ⟨v, q1, hr, hn, h hinv⟩

/-- A concrete instance: a four-node queue. -/
theorem pq_remove_first_preserves_min_heap_witness :
    pq_isempty (⟨⟨[40, 20, 30, 10]⟩, ⟨[1, 3, 8, 5]⟩⟩ : pq Nat) = 0 ∧
    in_step (⟨⟨[40, 20, 30, 10]⟩, ⟨[1, 3, 8, 5]⟩⟩ : pq Nat) ∧
    min_heap (⟨⟨[40, 20, 30, 10]⟩, ⟨[1, 3, 8, 5]⟩⟩ : pq Nat) ∧
    ∃ v q1, pq_remove_first (⟨⟨[40, 20, 30, 10]⟩, ⟨[1, 3, 8, 5]⟩⟩ : pq Nat) = some (v, q1) ∧
      dynarray_size q1.priors + 1 =
        dynarray_size (⟨⟨[40, 20, 30, 10]⟩, ⟨[1, 3, 8, 5]⟩⟩ : pq Nat).priors ∧
      min_heap q1 :=
  ⟨by decide, by decide, by decide,
    pq_remove_first_preserves_min_heap ⟨⟨[40, 20, 30, 10]⟩, ⟨[1, 3, 8, 5]⟩⟩
      (by decide) (by decide) (by decide)⟩

/-- C3: min extraction order.  For every finite list of (value, priority) pairs, inserting
them one by one into the queue made by `pq_create` and then removing the front until
`pq_isempty` answers 1 (any bound on the number of removals that is at least the length of
the list is enough) returns every inserted node once, each with the priority it was
inserted with, and in non-decreasing order of priority: the priority of each extracted
node is at most the priority of the node extracted next, and of every later one. -/
theorem min_extraction_order {α : Type} (l : List (α × Int)) (extra : Nat) :
    ∃ q out, insert_all pq_create l = some q ∧ drain (l.length + extra) q = some out ∧
      out.Perm l ∧ out.Chain' (fun a b => a.2 ≤ b.2) ∧
      out.Pairwise (fun a b => a.2 ≤ b.2) := by
  obtain ⟨q, hr, hq, hn, hperm, hinv⟩ := insert_all_spec l pq_create pq_create_in_step
  obtain ⟨out, hd, hperm2, hsorted⟩ := drain_spec (l.length + extra) q hq
    (hinv pq_create_min_heap)
    (by rw [hn]; simp [pq_create, dynarray_create, dynarray_size])
  refine ⟨q, out, hr, hd, ?_, hsorted.chain', hsorted⟩
  refine hperm2.trans (hperm.trans ?_)
  simp [nodes, pq_create, dynarray_create]

/-- C4: nothing is lost or duplicated.  For every finite list of n (value, priority)
pairs, duplicate priorities included, inserting them all into the empty queue and then
calling `pq_remove_first` exactly n times empties the queue and returns a permutation of
the inserted values; after inserting (X,2) and (Y,2) the two removals return X and Y in
some order. -/
theorem nothing_lost_or_duplicated {α : Type} (l : List (α × Int)) :
    ∃ q vs q1, insert_all pq_create l = some q ∧
      remove_n l.length q = some (vs, q1) ∧ pq_isempty q1 = 1 ∧
      vs.Perm (l.map Prod.fst) ∧
      (∀ X Y, l = [(X, 2), (Y, 2)] → vs = [X, Y] ∨ vs = [Y, X]) := by
  obtain ⟨q, hr, hq, hn, hperm, -⟩ := insert_all_spec l pq_create pq_create_in_step
  obtain ⟨vs, q1, hr1, hq1, hn1, hperm1⟩ := remove_n_spec l.length q hq
    (by rw [hn]; simp [pq_create, dynarray_create, dynarray_size])
  have hq12 : dynarray_size q1.values = dynarray_size q1.priors := hq1
  have hp : vs.Perm (l.map Prod.fst) := by
    refine hperm1.trans ?_
    have := hperm.map Prod.fst
    simpa [nodes, pq_create, dynarray_create] using this
  refine ⟨q, vs, q1, hr, hr1, (isempty_eq_one_iff q1).2 (by omega), hp, ?_⟩
  intro X Y hl
  subst hl
  exact perm_pair vs X Y hp

/-- C5: the front of the queue is the minimum.  On every non-empty queue whose stores have
equal length and that satisfies the invariant, `pq_first_priority` returns a priority that
is at most the priority held in every live slot, hence at most the priority of every node,
and `pq_first` returns the value held in slot 0, the slot of that priority. -/
theorem front_is_minimum {α : Type} (q : pq α)
    (hne : pq_isempty q = 0) (hq : in_step q) (hinv : min_heap q) :
    ∃ v p, pq_first q = some v ∧ pq_first_priority q = some p ∧
      (nodes q)[0]? = some (v, p) ∧
      (∀ i, i < dynarray_size q.priors → p ≤ priority_at q i) ∧
      (∀ x, x ∈ nodes q → p ≤ x.2) := by
  have hpos := pos_of_not_isempty q hq hne
  have hq2 : q.values.data.length = q.priors.data.length := hq
  obtain ⟨v, hv⟩ := getElem?_of_lt q.values.data 0
    (by simp only [dynarray_size] at hpos; omega)
  obtain ⟨p, hp⟩ := getElem?_of_lt q.priors.data 0 hpos
  have hp0 : priority_at q 0 = p := priority_at_eq q 0 p hp
  have hall : ∀ i, i < dynarray_size q.priors → p ≤ priority_at q i := by
    intro i hi
    rw [← hp0]
    exact root_le q hinv i hi
  refine ⟨v, p, hv, hp, ?_, hall, ?_⟩
  · simp [nodes, List.getElem?_zip_eq_some, hv, hp]
  · intro x hx
    obtain ⟨i, hi, hxi⟩ := priority_of_mem q x hx
    rw [← hxi]
    exact hall i hi

/-- A concrete instance: a four-node queue. -/
theorem front_is_minimum_witness :
    pq_isempty (⟨⟨[40, 20, 30, 10]⟩, ⟨[1, 3, 8, 5]⟩⟩ : pq Nat) = 0 ∧
    in_step (⟨⟨[40, 20, 30, 10]⟩, ⟨[1, 3, 8, 5]⟩⟩ : pq Nat) ∧
    min_heap (⟨⟨[40, 20, 30, 10]⟩, ⟨[1, 3, 8, 5]⟩⟩ : pq Nat) ∧
    ∃ v p, pq_first (⟨⟨[40, 20, 30, 10]⟩, ⟨[1, 3, 8, 5]⟩⟩ : pq Nat) = some v ∧
      pq_first_priority (⟨⟨[40, 20, 30, 10]⟩, ⟨[1, 3, 8, 5]⟩⟩ : pq Nat) = some p ∧
      (nodes (⟨⟨[40, 20, 30, 10]⟩, ⟨[1, 3, 8, 5]⟩⟩ : pq Nat))[0]? = some (v, p) ∧
      (∀ i, i < dynarray_size (⟨⟨[40, 20, 30, 10]⟩, ⟨[1, 3, 8, 5]⟩⟩ : pq Nat).priors →
        p ≤ priority_at (⟨⟨[40, 20, 30, 10]⟩, ⟨[1, 3, 8, 5]⟩⟩ : pq Nat) i) ∧
      (∀ x, x ∈ nodes (⟨⟨[40, 20, 30, 10]⟩, ⟨[1, 3, 8, 5]⟩⟩ : pq Nat) → p ≤ x.2) :=
  ⟨by decide, by decide, by decide,
    front_is_minimum ⟨⟨[40, 20, 30, 10]⟩, ⟨[1, 3, 8, 5]⟩⟩ (by decide) (by decide) (by decide)⟩

/-- C6: `pq_remove_first` removes exactly the front node.  On every non-empty queue whose
stores have equal length it returns the value `pq_first` returns just before the call, the
stores it leaves have equal length, and the multiset of (value, priority) nodes before the
call is the multiset after the call plus one occurrence of the node of slot 0. -/
theorem pq_remove_first_removes_front {α : Type} (q : pq α)
    (hne : pq_isempty q = 0) (hq : in_step q) :
    ∃ v p q1, pq_first q = some v ∧ (nodes q)[0]? = some (v, p) ∧
      pq_remove_first q = some (v, q1) ∧ in_step q1 ∧
      (nodes q : Multiset (α × Int)) = (v, p) ::ₘ (nodes q1 : Multiset (α × Int)) := by
  obtain ⟨v, p, q1, hv, hp, hr, hq1, -, hperm, -⟩ :=
    pq_remove_first_spec q hq (pos_of_not_isempty q hq hne)
  refine ⟨v, p, q1, hv, ?_, hr, hq1, ?_⟩
  · simp only [dynarray_get] at hv hp
    simp [nodes, List.getElem?_zip_eq_some, hv, hp]
  · rw [Multiset.cons_coe, Multiset.coe_eq_coe]
    exact hperm

/-- A concrete instance: a four-node queue. -/
theorem pq_remove_first_removes_front_witness :
    pq_isempty (⟨⟨[40, 20, 30, 10]⟩, ⟨[1, 3, 8, 5]⟩⟩ : pq Nat) = 0 ∧
    in_step (⟨⟨[40, 20, 30, 10]⟩, ⟨[1, 3, 8, 5]⟩⟩ : pq Nat) ∧
    ∃ v p q1, pq_first (⟨⟨[40, 20, 30, 10]⟩, ⟨[1, 3, 8, 5]⟩⟩ : pq Nat) = some v ∧
      (nodes (⟨⟨[40, 20, 30, 10]⟩, ⟨[1, 3, 8, 5]⟩⟩ : pq Nat))[0]? = some (v, p) ∧
      pq_remove_first (⟨⟨[40, 20, 30, 10]⟩, ⟨[1, 3, 8, 5]⟩⟩ : pq Nat) = some (v, q1) ∧
      in_step q1 ∧
      (nodes (⟨⟨[40, 20, 30, 10]⟩, ⟨[1, 3, 8, 5]⟩⟩ : pq Nat) : Multiset (Nat × Int)) =
        (v, p) ::ₘ (nodes q1 : Multiset (Nat × Int)) :=
  ⟨by decide, by decide,
    pq_remove_first_removes_front ⟨⟨[40, 20, 30, 10]⟩, ⟨[1, 3, 8, 5]⟩⟩ (by decide) (by decide)⟩

/-- C7: `pq_insert` adds exactly one node and keeps the stores in lock-step.  On every
queue whose stores have equal length, for every value v and integer priority p, the stores
after `pq_insert` have equal length again, one more than before, and the multiset of
(value, priority) nodes is the multiset before the call plus one occurrence of (v, p). -/
theorem pq_insert_adds_one_node {α : Type} (q : pq α) (v : α) (p : Int)
    (hq : in_step q) :
    ∃ q1, pq_insert q v p = some q1 ∧ in_step q1 ∧
      dynarray_size q1.values = dynarray_size q.values + 1 ∧
      (nodes q1 : Multiset (α × Int)) = (v, p) ::ₘ (nodes q : Multiset (α × Int)) := by
  obtain ⟨q1, hr, hq1, hn, hperm, -⟩ := pq_insert_spec q v p hq
  have h1 : dynarray_size q1.values = dynarray_size q1.priors := hq1
  have h2 : dynarray_size q.values = dynarray_size q.priors := hq
  refine ⟨q1, hr, hq1, by omega, ?_⟩
  rw [Multiset.cons_coe, Multiset.coe_eq_coe]
  exact hperm

/-- A concrete instance: a three-node queue and the pair (40, 1). -/
theorem pq_insert_adds_one_node_witness :
    in_step (⟨⟨[20, 10, 30]⟩, ⟨[3, 5, 8]⟩⟩ : pq Nat) ∧
    ∃ q1, pq_insert (⟨⟨[20, 10, 30]⟩, ⟨[3, 5, 8]⟩⟩ : pq Nat) 40 1 = some q1 ∧ in_step q1 ∧
      dynarray_size q1.values =
        dynarray_size (⟨⟨[20, 10, 30]⟩, ⟨[3, 5, 8]⟩⟩ : pq Nat).values + 1 ∧
      (nodes q1 : Multiset (Nat × Int)) =
        (40, 1) ::ₘ (nodes (⟨⟨[20, 10, 30]⟩, ⟨[3, 5, 8]⟩⟩ : pq Nat) : Multiset (Nat × Int)) :=
  ⟨by decide, pq_insert_adds_one_node ⟨⟨[20, 10, 30]⟩, ⟨[3, 5, 8]⟩⟩ 40 1 (by decide)⟩

/-- C8: count conservation.  Starting from `pq_create`, every script of `pq_insert` and
`pq_remove_first` calls in which each removal is applied to a non-empty queue (no prefix of
the script has more removals than inserts) runs to the end; with k inserts and r removals,
the value store and the priority store both have size k - r, and `pq_isempty` returns 1
when that size is 0 and 0 otherwise. -/
theorem count_conservation {α : Type} (ops : List (op α))
    (h : ∀ n, count_removals (ops.take n) ≤ count_inserts (ops.take n)) :
    ∃ q, run pq_create ops = some q ∧
      dynarray_size q.values = count_inserts ops - count_removals ops ∧
      dynarray_size q.priors = count_inserts ops - count_removals ops ∧
      pq_isempty q = if count_inserts ops - count_removals ops = 0 then 1 else 0 := by
  obtain ⟨q, hr, hq, hn⟩ := run_spec ops pq_create pq_create_in_step (by
    intro n
    have := h n
    omega)
  have hq2 : dynarray_size q.values = dynarray_size q.priors := hq
  have h0 : dynarray_size (pq_create : pq α).priors = 0 := rfl
  have hv : dynarray_size q.values = count_inserts ops - count_removals ops := by omega
  refine ⟨q, hr, hv, by omega, ?_⟩
  simp only [pq_isempty, hv]

/-- A concrete instance: a script of three inserts and one removal. -/
theorem count_conservation_witness :
    (∀ n, count_removals (([op.insert 7 5, op.insert 8 3, op.remove_first,
        op.insert 9 4] : List (op Nat)).take n) ≤
      count_inserts (([op.insert 7 5, op.insert 8 3, op.remove_first,
        op.insert 9 4] : List (op Nat)).take n)) ∧
    ∃ q, run pq_create ([op.insert 7 5, op.insert 8 3, op.remove_first,
        op.insert 9 4] : List (op Nat)) = some q ∧
      dynarray_size q.values = 3 - 1 ∧ dynarray_size q.priors = 3 - 1 ∧
      pq_isempty q = if 3 - 1 = 0 then 1 else 0 :=
  have hpre : ∀ n, count_removals (([op.insert 7 5, op.insert 8 3, op.remove_first,
        op.insert 9 4] : List (op Nat)).take n) ≤
      count_inserts (([op.insert 7 5, op.insert 8 3, op.remove_first,
        op.insert 9 4] : List (op Nat)).take n) := by
    intro n
    match n with
    | 0 => decide
    | 1 => decide
    | 2 => decide
    | 3 => decide
    | n + 4 => simp [count_removals, count_inserts]
  ⟨hpre, count_conservation _ hpre⟩

/-- C9: round trip on the empty queue.  For every value v and integer priority p,
`pq_insert` of (v, p) into the queue made by `pq_create` returns a queue on which
`pq_isempty` returns 0 and `pq_first` returns v; `pq_remove_first` on it returns v and
leaves a queue on which `pq_isempty` returns 1. -/
theorem round_trip_on_empty {α : Type} (v : α) (p : Int) :
    ∃ q1 q2, pq_insert pq_create v p = some q1 ∧ pq_isempty q1 = 0 ∧
      pq_first q1 = some v ∧ pq_remove_first q1 = some (v, q2) ∧ pq_isempty q2 = 1 := by
  refine ⟨⟨⟨[v]⟩, ⟨[p]⟩⟩, ⟨⟨[]⟩, ⟨[]⟩⟩, ?_, ?_, ?_, ?_, ?_⟩
  · simp only [pq_insert, pq_create, dynarray_create, dynarray_size, dynarray_insert]
    rw [perc_up]
    simp
  · simp [pq_isempty, dynarray_size]
  · simp [pq_first, dynarray_get]
  · simp [pq_remove_first, dynarray_get, swap, dynarray_set, dynarray_size, dynarray_remove]
  · simp [pq_isempty, dynarray_size]

/-- C10: the concrete scenario.  Starting from `pq_create` and inserting (A,5), (B,3),
(C,8), (D,1) in that order, `pq_first_priority` returns 1 and `pq_first` returns D; the
successive `pq_remove_first` calls return D, B, A, C, with `pq_first_priority` returning 3
after the first removal, 5 after the second and 8 after the third, and `pq_isempty`
returning 1 after the fourth. -/
theorem concrete_scenario {α : Type} (A B C D : α) :
    ∃ q0 q1 q2 q3 q4,
      insert_all pq_create [(A, 5), (B, 3), (C, 8), (D, 1)] = some q0 ∧
      pq_first_priority q0 = some 1 ∧ pq_first q0 = some D ∧
      pq_remove_first q0 = some (D, q1) ∧ pq_first_priority q1 = some 3 ∧
      pq_remove_first q1 = some (B, q2) ∧ pq_first_priority q2 = some 5 ∧
      pq_remove_first q2 = some (A, q3) ∧ pq_first_priority q3 = some 8 ∧
      pq_remove_first q3 = some (C, q4) ∧ pq_isempty q4 = 1 := by
  refine ⟨⟨⟨[D, B, C, A]⟩, ⟨[1, 3, 8, 5]⟩⟩, ⟨⟨[B, A, C]⟩, ⟨[3, 5, 8]⟩⟩,
    ⟨⟨[A, C]⟩, ⟨[5, 8]⟩⟩, ⟨⟨[C]⟩, ⟨[8]⟩⟩, ⟨⟨[]⟩, ⟨[]⟩⟩, ?_, ?_, ?_, ?_, ?_, ?_, ?_, ?_, ?_, ?_, ?_⟩
  · simp only [insert_all, pq_insert, pq_create, dynarray_create, dynarray_size,
      dynarray_insert]
    rw [perc_up]
    simp [dynarray_get, swap, dynarray_set]
    rw [perc_up]
    simp [dynarray_get, swap, dynarray_set]
    rw [perc_up]
    simp [dynarray_get, swap, dynarray_set]
    rw [perc_up]
    simp [dynarray_get, swap, dynarray_set]
    rw [perc_up]
    simp [dynarray_get, swap, dynarray_set]
    rw [perc_up]
    simp [dynarray_get, swap, dynarray_set]
    rw [perc_up]
    simp [dynarray_get, swap, dynarray_set]
  · simp [pq_first_priority, dynarray_get]
  · simp [pq_first, dynarray_get]
  · simp [pq_remove_first, dynarray_get, swap, dynarray_set, dynarray_size, dynarray_remove]
    rw [perc_down_step _ 0 1 5 3 (by simp [dynarray_size]) (by simp [dynarray_size, dynarray_get])
      (by simp [dynarray_get]) (by simp [dynarray_get])]
    simp [dynarray_get, swap, dynarray_set]
    rw [perc_down_leaf _ _ (by simp [dynarray_size])]
    simp
  · simp [pq_first_priority, dynarray_get]
  · simp [pq_remove_first, dynarray_get, swap, dynarray_set, dynarray_size, dynarray_remove]
    rw [perc_down_step _ 0 1 8 5 (by simp [dynarray_size]) (by simp [dynarray_size])
      (by simp [dynarray_get]) (by simp [dynarray_get])]
    simp [dynarray_get, swap, dynarray_set]
    rw [perc_down_leaf _ _ (by simp [dynarray_size])]
    simp
  · simp [pq_first_priority, dynarray_get]
  · simp [pq_remove_first, dynarray_get, swap, dynarray_set, dynarray_size, dynarray_remove]
    rw [perc_down_leaf _ _ (by simp [dynarray_size])]
    simp
  · simp [pq_first_priority, dynarray_get]
  · simp [pq_remove_first, dynarray_get, swap, dynarray_set, dynarray_size, dynarray_remove]
  · simp [pq_isempty, dynarray_size]

/-- C14: `pq_insert` only touches the bubble path.  On every queue of size n whose stores
have equal length, `pq_insert` returns a queue in which every slot j < n that is not an
ancestor of slot n holds the (value, priority) node it held before the call. -/
theorem pq_insert_touches_bubble_path {α : Type} (q : pq α) (v : α) (p : Int)
    (hq : in_step q) :
    ∃ q1, pq_insert q v p = some q1 ∧
      ∀ j, j < dynarray_size q.values → ¬ ancestor j (dynarray_size q.values) →
        (nodes q1)[j]? = (nodes q)[j]? := by
  have hq2 : dynarray_size q.values = dynarray_size q.priors := hq
  obtain ⟨q1, hr, -⟩ := pq_insert_spec q v p hq
  refine ⟨q1, hr, ?_⟩
  intro j hj hja
  rw [pq_insert_eq] at hr
  rw [perc_up_frame (dynarray_size q.values) _ q1 (in_step_appended q v p hq)
    (by simp only [dynarray_size, List.length_append, List.length_singleton] at hq2 ⊢; omega)
    hr j (by omega) hja]
  exact nodes_appended_lt q v p hq j (by omega)

/-- A concrete instance: a three-node queue, where slot 2 is not an ancestor of slot 3. -/
theorem pq_insert_touches_bubble_path_witness :
    in_step (⟨⟨[20, 10, 30]⟩, ⟨[3, 5, 8]⟩⟩ : pq Nat) ∧ ¬ ancestor 2 3 ∧
    ∃ q1, pq_insert (⟨⟨[20, 10, 30]⟩, ⟨[3, 5, 8]⟩⟩ : pq Nat) 40 1 = some q1 ∧
      ∀ j, j < dynarray_size (⟨⟨[20, 10, 30]⟩, ⟨[3, 5, 8]⟩⟩ : pq Nat).values →
        ¬ ancestor j (dynarray_size (⟨⟨[20, 10, 30]⟩, ⟨[3, 5, 8]⟩⟩ : pq Nat).values) →
        (nodes q1)[j]? = (nodes (⟨⟨[20, 10, 30]⟩, ⟨[3, 5, 8]⟩⟩ : pq Nat))[j]? :=
  ⟨by decide, by decide,
    pq_insert_touches_bubble_path ⟨⟨[20, 10, 30]⟩, ⟨[3, 5, 8]⟩⟩ 40 1 (by decide)⟩

/-- C16: ties do not swap in upward percolation.  On every non-empty queue of size n
whose stores have equal length, for every (v, p): when p is greater than or equal to the
priority held in slot (n - 1) / 2, the stores after `pq_insert` are the old stores with v
and p appended, every old node staying in its slot; when p is strictly less than that
priority, slot n holds the node that was in slot (n - 1) / 2 and not the new node. -/
theorem ties_do_not_swap_up {α : Type} (q : pq α) (v : α) (p : Int)
    (hne : pq_isempty q = 0) (hq : in_step q) :
    (priority_at q ((dynarray_size q.values - 1) / 2) ≤ p →
      pq_insert q v p = some ⟨⟨q.values.data ++ [v]⟩, ⟨q.priors.data ++ [p]⟩⟩) ∧
    (p < priority_at q ((dynarray_size q.values - 1) / 2) →
      ∃ q1, pq_insert q v p = some q1 ∧
        (nodes q1)[dynarray_size q.values]? =
          (nodes q)[(dynarray_size q.values - 1) / 2]? ∧
        (nodes q1)[dynarray_size q.values]? ≠ some (v, p)) := by
  have hq2 : dynarray_size q.values = dynarray_size q.priors := hq
  have hpos := pos_of_not_isempty q hq hne
  have hq0 := in_step_appended q v p hq
  have hn0 : dynarray_size (⟨⟨q.values.data ++ [v]⟩, ⟨q.priors.data ++ [p]⟩⟩ : pq α).priors =
      dynarray_size q.priors + 1 := by
    simp [dynarray_size]
  have hlen : q.priors.data.length = dynarray_size q.priors := rfl
  obtain ⟨parentP, hparentP⟩ := getElem?_of_lt q.priors.data
    ((dynarray_size q.values - 1) / 2) (by omega)
  have e1 : priority_at q ((dynarray_size q.values - 1) / 2) = parentP :=
    priority_at_eq q _ _ hparentP
  have hp0 : dynarray_get (⟨⟨q.values.data ++ [v]⟩, ⟨q.priors.data ++ [p]⟩⟩ : pq α).priors
      ((dynarray_size q.values - 1) / 2) = some parentP := by
    simp only [dynarray_get]
    rw [List.getElem?_append_left (by omega)]
    exact hparentP
  have hc0 : dynarray_get (⟨⟨q.values.data ++ [v]⟩, ⟨q.priors.data ++ [p]⟩⟩ : pq α).priors
      (dynarray_size q.values) = some p := by
    simp only [dynarray_get]
    rw [hq2]
    show (q.priors.data ++ [p])[q.priors.data.length]? = some p
    simp
  have hstep := perc_up_step _ (dynarray_size q.values) parentP p (by omega) hp0 hc0
  constructor
  · intro hle
    rw [pq_insert_eq, hstep, if_neg (by omega)]
  · intro hlt
    obtain ⟨q2, hs, hq2s, hn2, -, -, -, -, hlast⟩ :=
      swap_spec _ ((dynarray_size q.values - 1) / 2) (dynarray_size q.values) hq0
        (by omega) (by omega)
    obtain ⟨q1, hr, -⟩ := perc_up_spec ((dynarray_size q.values - 1) / 2) q2 hq2s (by omega)
    have hframe := perc_up_frame ((dynarray_size q.values - 1) / 2) q2 q1 hq2s (by omega) hr
      (dynarray_size q.values) (by omega) (fun h => by have := ancestor_lt h; omega)
    have hnode : (nodes q1)[dynarray_size q.values]? =
        (nodes q)[(dynarray_size q.values - 1) / 2]? := by
      rw [hframe, hlast]
      exact nodes_appended_lt q v p hq _ (by omega)
    refine ⟨q1, ?_, hnode, ?_⟩
    · rw [pq_insert_eq, hstep, if_pos (by omega), hs]
      exact hr
    · rw [hnode]
      intro h
      simp only [nodes, List.getElem?_zip_eq_some] at h
      rw [hparentP] at h
      have := h.2
      simp only [Option.some.injEq] at this
      omega

/-- A concrete instance: a three-node queue, whose slot (3 - 1) / 2 holds priority 5. -/
theorem ties_do_not_swap_up_witness :
    pq_isempty (⟨⟨[20, 10, 30]⟩, ⟨[3, 5, 8]⟩⟩ : pq Nat) = 0 ∧
    in_step (⟨⟨[20, 10, 30]⟩, ⟨[3, 5, 8]⟩⟩ : pq Nat) ∧
    (priority_at (⟨⟨[20, 10, 30]⟩, ⟨[3, 5, 8]⟩⟩ : pq Nat)
        ((dynarray_size (⟨⟨[20, 10, 30]⟩, ⟨[3, 5, 8]⟩⟩ : pq Nat).values - 1) / 2) ≤ 5 →
      pq_insert (⟨⟨[20, 10, 30]⟩, ⟨[3, 5, 8]⟩⟩ : pq Nat) 40 5 =
        some ⟨⟨[20, 10, 30] ++ [40]⟩, ⟨[3, 5, 8] ++ [5]⟩⟩) ∧
    (5 < priority_at (⟨⟨[20, 10, 30]⟩, ⟨[3, 5, 8]⟩⟩ : pq Nat)
        ((dynarray_size (⟨⟨[20, 10, 30]⟩, ⟨[3, 5, 8]⟩⟩ : pq Nat).values - 1) / 2) →
      ∃ q1, pq_insert (⟨⟨[20, 10, 30]⟩, ⟨[3, 5, 8]⟩⟩ : pq Nat) 40 5 = some q1 ∧
        (nodes q1)[dynarray_size (⟨⟨[20, 10, 30]⟩, ⟨[3, 5, 8]⟩⟩ : pq Nat).values]? =
          (nodes (⟨⟨[20, 10, 30]⟩, ⟨[3, 5, 8]⟩⟩ : pq Nat))[(dynarray_size
            (⟨⟨[20, 10, 30]⟩, ⟨[3, 5, 8]⟩⟩ : pq Nat).values - 1) / 2]? ∧
        (nodes q1)[dynarray_size (⟨⟨[20, 10, 30]⟩, ⟨[3, 5, 8]⟩⟩ : pq Nat).values]? ≠
          some (40, 5)) :=
  ⟨by decide, by decide,
    ties_do_not_swap_up ⟨⟨[20, 10, 30]⟩, ⟨[3, 5, 8]⟩⟩ 40 5 (by decide) (by decide)⟩

/-- C19: the effect of `pq_insert` on the front.  On every non-empty queue whose stores
have equal length and that satisfies the invariant, with front priority m and front value
f, after `pq_insert` of (v, p) `pq_first_priority` returns min(m, p), and `pq_first`
returns v when p < m and still returns f when p >= m. -/
theorem pq_insert_front {α : Type} (q : pq α) (v : α) (p : Int) (f : α) (m : Int)
    (hq : in_step q) (hinv : min_heap q)
    (hf : pq_first q = some f) (hm : pq_first_priority q = some m) :
    ∃ q1, pq_insert q v p = some q1 ∧ pq_first_priority q1 = some (min m p) ∧
      (p < m → pq_first q1 = some v) ∧ (m ≤ p → pq_first q1 = some f) := by
  have hq2 : dynarray_size q.values = dynarray_size q.priors := hq
  have hpos : 0 < dynarray_size q.priors := (List.getElem?_eq_some.1 hm).1
  have hm0 : priority_at q 0 = m := priority_at_eq q 0 m hm
  have hnode := node_of_front q f m hf hm
  obtain ⟨q1, hr, hq1, hn1, hperm, hinv1⟩ := pq_insert_spec q v p hq
  have hq12 : dynarray_size q1.values = dynarray_size q1.priors := hq1
  refine ⟨q1, hr, ?_⟩
  by_cases hlt : p < m
  · have hpos1 : 0 < (nodes q1).length := by rw [nodes_length q1 hq1]; omega
    obtain ⟨x, hx⟩ := getElem?_of_lt (nodes q1) 0 hpos1
    obtain ⟨a, b⟩ := x
    have hfront := front_of_node q1 a b hx
    have hb0 : priority_at q1 0 = b := priority_at_eq q1 0 b hfront.2
    have hble : b ≤ p := by
      obtain ⟨i, hi, hpi⟩ := priority_of_mem q1 (v, p)
        (hperm.symm.subset (List.mem_cons_self _ _))
      have := root_le q1 (hinv1 hinv) i hi
      simp only at hpi
      omega
    have hmem : (a, b) ∈ (v, p) :: nodes q :=
      hperm.subset (List.getElem?_mem hx)
    have hab : (a, b) = (v, p) := by
      rcases List.mem_cons.1 hmem with h | h
      · exact h
      · obtain ⟨i, hi, hpi⟩ := priority_of_mem q (a, b) h
        have := root_le q hinv i hi
        simp only at hpi
        omega
    simp only [Prod.mk.injEq] at hab
    refine ⟨?_, fun _ => ?_, fun h => by omega⟩
    · rw [hfront.2, hab.2, min_eq_right (le_of_lt hlt)]
    · rw [hfront.1, hab.1]
  · have hle : m ≤ p := by omega
    rw [pq_insert_eq] at hr
    have hkeep := perc_up_keeps_root (dynarray_size q.values) _ q1
      (in_step_appended q v p hq)
      (by simp only [dynarray_size, List.length_append, List.length_singleton] at hq2 ⊢; omega)
      hr (by omega)
      (by rw [priority_at_appended_lt q v p 0 hpos, hq2, priority_at_appended_last, hm0]
          exact hle)
    rw [nodes_appended_lt q v p hq 0 hpos, hnode] at hkeep
    have hfront := front_of_node q1 f m hkeep
    refine ⟨?_, fun h => by omega, fun _ => hfront.1⟩
    rw [hfront.2, min_eq_left hle]

/-- A concrete instance: a three-node queue with front (20, 3) and the pair (40, 1). -/
theorem pq_insert_front_witness :
    in_step (⟨⟨[20, 10, 30]⟩, ⟨[3, 5, 8]⟩⟩ : pq Nat) ∧
    min_heap (⟨⟨[20, 10, 30]⟩, ⟨[3, 5, 8]⟩⟩ : pq Nat) ∧
    pq_first (⟨⟨[20, 10, 30]⟩, ⟨[3, 5, 8]⟩⟩ : pq Nat) = some 20 ∧
    pq_first_priority (⟨⟨[20, 10, 30]⟩, ⟨[3, 5, 8]⟩⟩ : pq Nat) = some 3 ∧
    ∃ q1, pq_insert (⟨⟨[20, 10, 30]⟩, ⟨[3, 5, 8]⟩⟩ : pq Nat) 40 1 = some q1 ∧
      pq_first_priority q1 = some (min 3 1) ∧
      ((1 : Int) < 3 → pq_first q1 = some 40) ∧ ((3 : Int) ≤ 1 → pq_first q1 = some 20) :=
  ⟨by decide, by decide, by decide, by decide,
    pq_insert_front ⟨⟨[20, 10, 30]⟩, ⟨[3, 5, 8]⟩⟩ 40 1 20 3 (by decide) (by decide)
      (by decide) (by decide)⟩

/-- C15: downward percolation breaks ties to the left.  On every queue whose stores have
equal length, at every slot idx whose two children 2 * idx + 1 and 2 * idx + 2 are in
range, when the priority of the left child is at most the one of the right child (equal
to it on a tie) and strictly below the priority of slot idx, `perc_down` from idx moves
the node of the left child into idx and leaves the node of the right child where it was:
the left child is the candidate. -/
theorem perc_down_ties_left {α : Type} (q : pq α) (idx : Nat) (hq : in_step q)
    (hr : 2 * idx + 2 < dynarray_size q.values)
    (hle : priority_at q (2 * idx + 1) ≤ priority_at q (2 * idx + 2))
    (hgt : priority_at q (2 * idx + 1) < priority_at q idx) :
    ∃ q1, perc_down q idx = some q1 ∧
      (nodes q1)[idx]? = (nodes q)[2 * idx + 1]? ∧
      (nodes q1)[2 * idx + 2]? = (nodes q)[2 * idx + 2]? := by
  have hq2 : dynarray_size q.values = dynarray_size q.priors := hq
  have hlen : q.priors.data.length = dynarray_size q.priors := rfl
  obtain ⟨idxP, hidxP⟩ := getElem?_of_lt q.priors.data idx (by omega)
  obtain ⟨leftP, hleftP⟩ := getElem?_of_lt q.priors.data (2 * idx + 1) (by omega)
  obtain ⟨rightP, hrightP⟩ := getElem?_of_lt q.priors.data (2 * idx + 2) (by omega)
  rw [priority_at_eq q _ _ hleftP, priority_at_eq q _ _ hrightP] at hle
  rw [priority_at_eq q _ _ hleftP, priority_at_eq q _ _ hidxP] at hgt
  have hnr : ¬ (2 * idx + 2 ≥ dynarray_size q.values) := by omega
  have hstep := perc_down_step q idx (2 * idx + 1) idxP leftP (by omega)
    (by simp [hnr, dynarray_get, hleftP, hrightP, hle]) hidxP hleftP
  obtain ⟨q2, hs, hq2s, hn2, -, -, hframe, hi2, -⟩ :=
    swap_spec q idx (2 * idx + 1) hq (by omega) (by omega)
  obtain ⟨q1, hr1, -⟩ := perc_down_spec _ q2 (2 * idx + 1) hq2s (by omega) (le_refl _)
  have hfr := perc_down_frame _ q2 q1 (2 * idx + 1) hq2s (by omega) (le_refl _) hr1
  refine ⟨q1, ?_, ?_, ?_⟩
  · rw [hstep, if_pos (by omega), hs]
    exact hr1
  · rw [hfr idx (by omega) (by omega)]
    exact hi2
  · rw [hfr (2 * idx + 2) (by omega) (by omega)]
    exact hframe (2 * idx + 2) (by omega) (by omega)

/-- A concrete instance: slot 0 holds priority 7 and its two children hold priority 4. -/
theorem perc_down_ties_left_witness :
    in_step (⟨⟨[10, 20, 30]⟩, ⟨[7, 4, 4]⟩⟩ : pq Nat) ∧
    2 * 0 + 2 < dynarray_size (⟨⟨[10, 20, 30]⟩, ⟨[7, 4, 4]⟩⟩ : pq Nat).values ∧
    priority_at (⟨⟨[10, 20, 30]⟩, ⟨[7, 4, 4]⟩⟩ : pq Nat) (2 * 0 + 1) ≤
      priority_at (⟨⟨[10, 20, 30]⟩, ⟨[7, 4, 4]⟩⟩ : pq Nat) (2 * 0 + 2) ∧
    priority_at (⟨⟨[10, 20, 30]⟩, ⟨[7, 4, 4]⟩⟩ : pq Nat) (2 * 0 + 1) <
      priority_at (⟨⟨[10, 20, 30]⟩, ⟨[7, 4, 4]⟩⟩ : pq Nat) 0 ∧
    ∃ q1, perc_down (⟨⟨[10, 20, 30]⟩, ⟨[7, 4, 4]⟩⟩ : pq Nat) 0 = some q1 ∧
      (nodes q1)[0]? = (nodes (⟨⟨[10, 20, 30]⟩, ⟨[7, 4, 4]⟩⟩ : pq Nat))[2 * 0 + 1]? ∧
      (nodes q1)[2 * 0 + 2]? =
        (nodes (⟨⟨[10, 20, 30]⟩, ⟨[7, 4, 4]⟩⟩ : pq Nat))[2 * 0 + 2]? :=
  ⟨by decide, by decide, by decide, by decide,
    perc_down_ties_left ⟨⟨[10, 20, 30]⟩, ⟨[7, 4, 4]⟩⟩ 0 (by decide) (by decide) (by decide)
      (by decide)⟩

/-- C11: peeking does not mutate.  On every non-empty queue (its stores have equal length),
`pq_first`, `pq_first_priority` and `pq_isempty`, taken as steps on the queue, each return
the answer of the function and leave both stores, and so the queue, exactly as they were;
hence in every sequence of such calls, each made on the queue the call before it left, with
no `pq_insert` and no `pq_remove_first` in between, every `pq_first` returns the same
value, every `pq_first_priority` the same priority and every `pq_isempty` returns 0, and
the queue left at the end is the one the sequence started from. -/
theorem peeking_does_not_mutate {α : Type} (q : pq α)
    (hne : pq_isempty q = 0) (hq : in_step q) :
    ∃ v p, pq_first q = some v ∧ pq_first_priority q = some p ∧
      pq_first_call q = some (v, q) ∧
      pq_first_priority_call q = some (p, q) ∧
      pq_isempty_call q = (pq_isempty q, q) ∧
      ∀ calls, peek_calls q calls = some (calls.map (fun c => match c with
          | peek.first => answer.value v
          | peek.first_priority => answer.priority p
          | peek.isempty => answer.flag 0), q) := by
  have hpos := pos_of_not_isempty q hq hne
  have hq2 : dynarray_size q.values = dynarray_size q.priors := hq
  have hlen : q.values.data.length = dynarray_size q.values := rfl
  obtain ⟨v, hv⟩ := getElem?_of_lt q.values.data 0 (by omega)
  obtain ⟨p, hp⟩ := getElem?_of_lt q.priors.data 0 hpos
  have hv1 : pq_first q = some v := hv
  have hp1 : pq_first_priority q = some p := hp
  have h1 : pq_first_call q = some (v, q) := by
    simp [pq_first_call, dynarray_get_call, dynarray_get, hv]
  have h2 : pq_first_priority_call q = some (p, q) := by
    simp [pq_first_priority_call, dynarray_get_call, dynarray_get, hp]
  have h3 : pq_isempty_call q = (pq_isempty q, q) := by
    simp [pq_isempty_call, dynarray_size_call, pq_isempty]
  refine ⟨v, p, hv1, hp1, h1, h2, h3, ?_⟩
  intro calls
  induction calls with
  | nil => rfl
  | cons c rest ih =>
    cases c with
    | first => simp [peek_calls, peek_call, h1, ih]
    | first_priority => simp [peek_calls, peek_call, h2, ih]
    | isempty => simp [peek_calls, peek_call, h3, hne, ih]

/-- A concrete instance: a four-node queue. -/
theorem peeking_does_not_mutate_witness :
    pq_isempty (⟨⟨[40, 20, 30, 10]⟩, ⟨[1, 3, 8, 5]⟩⟩ : pq Nat) = 0 ∧
    in_step (⟨⟨[40, 20, 30, 10]⟩, ⟨[1, 3, 8, 5]⟩⟩ : pq Nat) ∧
    ∃ v p, pq_first (⟨⟨[40, 20, 30, 10]⟩, ⟨[1, 3, 8, 5]⟩⟩ : pq Nat) = some v ∧
      pq_first_priority (⟨⟨[40, 20, 30, 10]⟩, ⟨[1, 3, 8, 5]⟩⟩ : pq Nat) = some p ∧
      pq_first_call (⟨⟨[40, 20, 30, 10]⟩, ⟨[1, 3, 8, 5]⟩⟩ : pq Nat) =
        some (v, ⟨⟨[40, 20, 30, 10]⟩, ⟨[1, 3, 8, 5]⟩⟩) ∧
      pq_first_priority_call (⟨⟨[40, 20, 30, 10]⟩, ⟨[1, 3, 8, 5]⟩⟩ : pq Nat) =
        some (p, ⟨⟨[40, 20, 30, 10]⟩, ⟨[1, 3, 8, 5]⟩⟩) ∧
      pq_isempty_call (⟨⟨[40, 20, 30, 10]⟩, ⟨[1, 3, 8, 5]⟩⟩ : pq Nat) =
        (pq_isempty (⟨⟨[40, 20, 30, 10]⟩, ⟨[1, 3, 8, 5]⟩⟩ : pq Nat),
          ⟨⟨[40, 20, 30, 10]⟩, ⟨[1, 3, 8, 5]⟩⟩) ∧
      ∀ calls, peek_calls (⟨⟨[40, 20, 30, 10]⟩, ⟨[1, 3, 8, 5]⟩⟩ : pq Nat) calls =
        some (calls.map (fun c => match c with
          | peek.first => answer.value v
          | peek.first_priority => answer.priority p
          | peek.isempty => answer.flag 0), ⟨⟨[40, 20, 30, 10]⟩, ⟨[1, 3, 8, 5]⟩⟩) :=
  ⟨by decide, by decide,
    peeking_does_not_mutate ⟨⟨[40, 20, 30, 10]⟩, ⟨[1, 3, 8, 5]⟩⟩ (by decide) (by decide)⟩

/-- C12: empty-heap peek and remove fail fast.  On an empty queue (`pq_isempty` returns 1,
the stores have equal length) the read of slot 0 is out of range, so `pq_first`,
`pq_first_priority` and `pq_remove_first` each halt: none returns a value or a priority,
and `pq_remove_first` returns no queue. -/
theorem empty_peek_and_remove_halt {α : Type} (q : pq α)
    (he : pq_isempty q = 1) (hq : in_step q) :
    dynarray_get q.values 0 = none ∧ dynarray_get q.priors 0 = none ∧
      pq_first q = none ∧ pq_first_priority q = none ∧ pq_remove_first q = none := by
  have h0 : dynarray_size q.values = 0 := (isempty_eq_one_iff q).1 he
  have hq2 : dynarray_size q.values = dynarray_size q.priors := hq
  have hv : q.values.data = [] := List.length_eq_zero.1 h0
  have hp : q.priors.data = [] := List.length_eq_zero.1 (by rw [← h0, hq2]; rfl)
  refine ⟨?_, ?_, ?_, ?_, ?_⟩
  · simp [dynarray_get, hv]
  · simp [dynarray_get, hp]
  · simp [pq_first, dynarray_get, hv]
  · simp [pq_first_priority, dynarray_get, hp]
  · simp [pq_remove_first, dynarray_get, hv]

/-- A concrete instance: the queue made by `pq_create`. -/
theorem empty_peek_and_remove_halt_witness :
    pq_isempty (pq_create : pq Nat) = 1 ∧ in_step (pq_create : pq Nat) ∧
    dynarray_get (pq_create : pq Nat).values 0 = none ∧
    dynarray_get (pq_create : pq Nat).priors 0 = none ∧
    pq_first (pq_create : pq Nat) = none ∧ pq_first_priority (pq_create : pq Nat) = none ∧
    pq_remove_first (pq_create : pq Nat) = none :=
  ⟨by decide, by decide, empty_peek_and_remove_halt pq_create (by decide) (by decide)⟩

/-- C20: extraction is not stable.  Inserting (X,2), (Y,2), (Z,2) into the empty queue and
removing three times returns X, Z, Y; so there is a sequence of inserts of equal priority
whose values `pq_remove_first` returns in an order other than the order of insertion. -/
theorem extraction_not_stable {α : Type} (X Y Z : α) :
    (∃ q q1, insert_all pq_create [(X, 2), (Y, 2), (Z, 2)] = some q ∧
      remove_n 3 q = some ([X, Z, Y], q1)) ∧
    (∃ l : List (Nat × Int), l.map Prod.snd = [2, 2, 2] ∧
      ∃ q vs q1, insert_all pq_create l = some q ∧
        remove_n l.length q = some (vs, q1) ∧ vs ≠ l.map Prod.fst) := by
  refine ⟨remove_three_equal X Y Z, [(1, 2), (2, 2), (3, 2)], rfl, ?_⟩
  obtain ⟨q, q1, hi, hr⟩ := remove_three_equal (1 : Nat) 2 3
  exact ⟨q, [1, 3, 2], q1, hi, hr, by decide⟩

/-- C17: both restoration walks terminate.  On every queue whose stores have equal length
and from every slot idx in range: `perc_up` returns, it stops at slot 0, and below it
either stops or goes on from the parent (idx - 1) / 2, a slot strictly below idx;
`perc_down` returns, and either stops or goes on from a child 2 * idx + 1 or 2 * idx + 2,
a slot strictly above idx and below the size, which the swap leaves unchanged.  So
`pq_insert` returns on every such queue and `pq_remove_first` on every non-empty one. -/
theorem restoration_walks_terminate {α : Type} (q : pq α) (hq : in_step q) :
    (∀ idx, idx < dynarray_size q.values →
      (∃ r, perc_up q idx = some r) ∧
      (idx = 0 → perc_up q idx = some q) ∧
      (idx ≠ 0 → perc_up q idx = some q ∨
        ∃ q1, swap q ((idx - 1) / 2) idx = some q1 ∧ (idx - 1) / 2 < idx ∧
          perc_up q idx = perc_up q1 ((idx - 1) / 2)) ∧
      (∃ r, perc_down q idx = some r) ∧
      (perc_down q idx = some q ∨
        ∃ q1 child, (child = 2 * idx + 1 ∨ child = 2 * idx + 2) ∧ idx < child ∧
          child < dynarray_size q.values ∧ swap q idx child = some q1 ∧
          dynarray_size q1.values = dynarray_size q.values ∧
          perc_down q idx = perc_down q1 child)) ∧
    (∀ v p, ∃ r, pq_insert q v p = some r) ∧
    (pq_isempty q = 0 → ∃ r, pq_remove_first q = some r) := by
  have hq2 : dynarray_size q.values = dynarray_size q.priors := hq
  have hlen : q.priors.data.length = dynarray_size q.priors := rfl
  refine ⟨?_, ?_, ?_⟩
  · intro idx hidx
    refine ⟨?_, ?_, ?_, ?_, ?_⟩
    · obtain ⟨r, hr, -⟩ := perc_up_spec idx q hq (by omega)
      exact ⟨r, hr⟩
    · intro h0
      rw [h0]
      exact perc_up_root q
    · intro h0
      obtain ⟨parentP, hparentP⟩ := getElem?_of_lt q.priors.data ((idx - 1) / 2) (by omega)
      obtain ⟨currP, hcurrP⟩ := getElem?_of_lt q.priors.data idx (by omega)
      rw [perc_up_step q idx parentP currP h0 hparentP hcurrP]
      by_cases hgt : parentP > currP
      · right
        obtain ⟨q1, hs, -⟩ := swap_spec q ((idx - 1) / 2) idx hq (by omega) (by omega)
        exact ⟨q1, hs, by omega, by simp [hgt, hs]⟩
      · left
        simp [hgt]
    · obtain ⟨r, hr, -⟩ := perc_down_spec _ q idx hq (by omega) (le_refl _)
      exact ⟨r, hr⟩
    · by_cases hleaf : dynarray_size q.values ≤ 2 * idx + 1
      · left
        exact perc_down_leaf q idx hleaf
      · obtain ⟨min, hsel, hmp, him, hml, -⟩ := perc_down_min q idx hq (by omega)
        obtain ⟨idxP, hidxP⟩ := getElem?_of_lt q.priors.data idx (by omega)
        obtain ⟨minP, hminP⟩ := getElem?_of_lt q.priors.data min hml
        rw [perc_down_step q idx min idxP minP (by omega) hsel hidxP hminP]
        by_cases hgt : idxP > minP
        · right
          obtain ⟨q1, hs, hq1, hn1, -⟩ := swap_spec q idx min hq (by omega) hml
          have hq12 : dynarray_size q1.values = dynarray_size q1.priors := hq1
          exact ⟨q1, min, by omega, him, by omega, hs, by omega, by simp [hgt, hs]⟩
        · left
          simp [hgt]
  · intro v p
    obtain ⟨r, hr, -⟩ := pq_insert_spec q v p hq
    exact ⟨r, hr⟩
  · intro hne
    obtain ⟨v, p, q1, -, -, hr, -⟩ :=
      pq_remove_first_spec q hq (pos_of_not_isempty q hq hne)
    exact ⟨(v, q1), hr⟩

/-- A concrete instance: a four-node queue. -/
theorem restoration_walks_terminate_witness :
    in_step (⟨⟨[40, 20, 30, 10]⟩, ⟨[1, 3, 8, 5]⟩⟩ : pq Nat) ∧
    (∃ r, perc_up (⟨⟨[40, 20, 30, 10]⟩, ⟨[1, 3, 8, 5]⟩⟩ : pq Nat) 3 = some r) ∧
    (∃ r, perc_down (⟨⟨[40, 20, 30, 10]⟩, ⟨[1, 3, 8, 5]⟩⟩ : pq Nat) 0 = some r) ∧
    (∀ v p, ∃ r, pq_insert (⟨⟨[40, 20, 30, 10]⟩, ⟨[1, 3, 8, 5]⟩⟩ : pq Nat) v p = some r) ∧
    (pq_isempty (⟨⟨[40, 20, 30, 10]⟩, ⟨[1, 3, 8, 5]⟩⟩ : pq Nat) = 0 →
      ∃ r, pq_remove_first (⟨⟨[40, 20, 30, 10]⟩, ⟨[1, 3, 8, 5]⟩⟩ : pq Nat) = some r) :=
  ⟨by decide,
    ((restoration_walks_terminate ⟨⟨[40, 20, 30, 10]⟩, ⟨[1, 3, 8, 5]⟩⟩ (by decide)).1 3
      (by decide)).1,
    ((restoration_walks_terminate ⟨⟨[40, 20, 30, 10]⟩, ⟨[1, 3, 8, 5]⟩⟩ (by decide)).1 0
      (by decide)).2.2.2.1,
    (restoration_walks_terminate ⟨⟨[40, 20, 30, 10]⟩, ⟨[1, 3, 8, 5]⟩⟩ (by decide)).2.1,
    (restoration_walks_terminate ⟨⟨[40, 20, 30, 10]⟩, ⟨[1, 3, 8, 5]⟩⟩ (by decide)).2.2⟩

/-- C18: index arithmetic never leaves the live range.  The store fails exactly on an
index that is out of range.  On every queue whose stores have equal length `pq_insert`
does not fail, and when the queue is non-empty neither do `pq_remove_first`, `pq_first`
and `pq_first_priority`: every indexed read, indexed write and removal they perform is in
range.  This includes the queue of size 1, where `swap` is called with both indices 0. -/
theorem index_arithmetic_in_range {α : Type} (q : pq α) (hq : in_step q) :
    (∀ (da : dynarray α) (i : Nat) (x : α),
      (dynarray_get da i = none ↔ ¬ i < dynarray_size da) ∧
      (dynarray_set da i x = none ↔ ¬ i < dynarray_size da) ∧
      (dynarray_remove da i = none ↔ ¬ i < dynarray_size da)) ∧
    (∀ v p, pq_insert q v p ≠ none) ∧
    (pq_isempty q = 0 →
      pq_remove_first q ≠ none ∧ pq_first q ≠ none ∧ pq_first_priority q ≠ none) ∧
    (dynarray_size q.values = 1 →
      swap q 0 (dynarray_size q.values - 1) = some q ∧ pq_remove_first q ≠ none) := by
  have hq2 : dynarray_size q.values = dynarray_size q.priors := hq
  have hrem : 0 < dynarray_size q.priors →
      pq_remove_first q ≠ none ∧ pq_first q ≠ none ∧ pq_first_priority q ≠ none := by
    intro hpos
    obtain ⟨v, p, q1, hv, hp, hr, -⟩ := pq_remove_first_spec q hq hpos
    refine ⟨by rw [hr]; simp, ?_, ?_⟩
    · simp only [pq_first, hv]; simp
    · simp only [pq_first_priority, hp]; simp
  refine ⟨?_, ?_, ?_, ?_⟩
  · intro da i x
    refine ⟨?_, ?_, ?_⟩
    · simp [dynarray_get, dynarray_size]
    · simp [dynarray_set, dynarray_size]
    · simp [dynarray_remove, dynarray_size]
  · intro v p
    obtain ⟨r, hr, -⟩ := pq_insert_spec q v p hq
    rw [hr]; simp
  · intro hne
    exact hrem (pos_of_not_isempty q hq hne)
  · intro h1
    refine ⟨?_, (hrem (by omega)).1⟩
    rw [h1]
    exact swap_self q 0 hq (by omega)

/-- A concrete instance: a one-node queue, where `swap` is called with both indices 0. -/
theorem index_arithmetic_in_range_witness :
    in_step (⟨⟨[40]⟩, ⟨[1]⟩⟩ : pq Nat) ∧
    (∀ v p, pq_insert (⟨⟨[40]⟩, ⟨[1]⟩⟩ : pq Nat) v p ≠ none) ∧
    (pq_isempty (⟨⟨[40]⟩, ⟨[1]⟩⟩ : pq Nat) = 0 →
      pq_remove_first (⟨⟨[40]⟩, ⟨[1]⟩⟩ : pq Nat) ≠ none ∧
      pq_first (⟨⟨[40]⟩, ⟨[1]⟩⟩ : pq Nat) ≠ none ∧
      pq_first_priority (⟨⟨[40]⟩, ⟨[1]⟩⟩ : pq Nat) ≠ none) ∧
    (dynarray_size (⟨⟨[40]⟩, ⟨[1]⟩⟩ : pq Nat).values = 1 →
      swap (⟨⟨[40]⟩, ⟨[1]⟩⟩ : pq Nat) 0
        (dynarray_size (⟨⟨[40]⟩, ⟨[1]⟩⟩ : pq Nat).values - 1) = some ⟨⟨[40]⟩, ⟨[1]⟩⟩ ∧
      pq_remove_first (⟨⟨[40]⟩, ⟨[1]⟩⟩ : pq Nat) ≠ none) :=
  ⟨by decide, (index_arithmetic_in_range ⟨⟨[40]⟩, ⟨[1]⟩⟩ (by decide)).2⟩

/-- C13, evaluated on the code with the priority boxes explicit: `pq_free` releases no
box.  Starting from `pq_create` with no box live, `pq_insert` of (A,5) and of (B,3)
allocates one box each; `pq_remove_first` returns B and releases the box of B only, the
box of A staying live; `pq_free` of the queue that holds the node of A then leaves that
box live. -/
theorem pq_free_leaves_boxes_live {α : Type} (A B : α) :
    ∃ q1 h1 q2 h2 q3 h3,
      pq_insert_box pq_create_box ⟨[], 0⟩ A 5 = some (q1, h1) ∧ h1.live = [(0, 5)] ∧
      pq_insert_box q1 h1 B 3 = some (q2, h2) ∧ h2.live = [(0, 5), (1, 3)] ∧
      pq_remove_first_box q2 h2 = some (B, q3, h3) ∧ h3.live = [(0, 5)] ∧
      q3 = ⟨⟨[A]⟩, ⟨[0]⟩⟩ ∧ (pq_free_box q3 h3).live = [(0, 5)] ∧
      (∀ (q : pq_box α) (h : box_heap), (pq_free_box q h).live = h.live) := by
  refine ⟨⟨⟨[A]⟩, ⟨[0]⟩⟩, ⟨[(0, 5)], 1⟩, ⟨⟨[B, A]⟩, ⟨[1, 0]⟩⟩, ⟨[(0, 5), (1, 3)], 2⟩,
    ⟨⟨[A]⟩, ⟨[0]⟩⟩, ⟨[(0, 5)], 2⟩, ?_, rfl, ?_, rfl, ?_, rfl, rfl, rfl, fun _ _ => rfl⟩
  · simp only [pq_insert_box, pq_create_box, dynarray_create, dynarray_size, dynarray_insert,
      box_alloc]
    rw [perc_up_box]
    simp
  · simp only [pq_insert_box, dynarray_size, dynarray_insert, box_alloc]
    rw [perc_up_box]
    simp [prior_box, dynarray_get, box_read, List.lookup, swap_box, dynarray_set]
    rw [perc_up_box]
    simp
  · simp [pq_remove_first_box, dynarray_get, swap_box, dynarray_set, dynarray_size,
      dynarray_remove, box_free, List.lookup, List.filter]
    rw [perc_down_box_leaf _ _ _ (by simp [dynarray_size])]
    simp

end PQ
